import Mathlib

/-!
Verification development for the reactivity and scheduling core of the
bundled UI-runtime in this repository (dependency tracking, reactive
proxies, ref/computed cells, and the microtask job scheduler).

Each model below is a shallow embedding of the corresponding JavaScript
source: JS objects become Lean structures, the mutable global state of the
tracking subsystem becomes an explicit state record threaded through the
operations, JS `Set`s become duplicate-free lists in insertion order, the
bitmask generation markers become `Nat`s manipulated with `|||`/`&&&`/
`Nat.ldiff`, and fallible or throwing code returns an explicit result
value.  Instrumentation fields (`runLog`, `getterRuns`, `trace`,
`thenFlushCount`) record the events the specification talks about (effect
re-runs, getter executions, flush order); they are write-only and do not
influence control flow.
-/

namespace VueModel

/-- Model of JS primitive values as compared by `Object.is` (the source's
`hasChanged` uses `!Object.is(value, oldValue)`).  `Object.is` is
reference/NaN-aware: `Object.is(NaN, NaN)` is `true` and
`Object.is(0, -0)` is `false`, so on this fragment it coincides with
structural equality, with `-0` given its own constructor. -/
inductive JSVal where
  | num (n : Int)
  | negZero
  | nan
  | undef
  | boolv (b : Bool)
deriving DecidableEq, Repr

/-- Source: `const hasChanged = (value, oldValue) => !Object.is(value, oldValue)`. -/
def hasChanged (value oldValue : JSVal) : Bool :=
  value ≠ oldValue

/-- JS truthiness of a modelled primitive (used when an effect branches on
a flag it read). `NaN`, `undefined`, `false`, `0` and `-0` are falsy. -/
def truthy : JSVal → Bool
  | .num n => n ≠ 0
  | .negZero => false
  | .nan => false
  | .undef => false
  | .boolv b => b

/-!
## Computed cells (`ComputedRefImpl`)

Model of the cached-value state machine of `ComputedRefImpl`.  The
constructor sets `_dirty = true` and merely *stores* the getter inside a
`ReactiveEffect` (whose own constructor only assigns fields and never
invokes `fn`), so no getter execution happens at construction.  The
`value` getter runs the effect (hence the getter) only when
`_dirty || !_cacheable`.  The effect's scheduler sets `_dirty = true` and
notifies the computed's subscribers without running the getter.

The getter is abstracted by its current result `g : JSVal`: between two
reads with no intervening dependency change the getter is a fixed pure
function, so both reads would see the same result.  `getterRuns` is
instrumentation counting getter executions (`self.effect.run()` calls).
Dependency tracking (`trackRefValue`) and subscriber notification
(`triggerRefValue`) are modelled in the effect-system section; here only
the caching behaviour is at issue.
-/

structure ComputedModel where
  _dirty : Bool
  _cacheable : Bool
  _value : JSVal
  getterRuns : Nat
deriving DecidableEq, Repr

/-- Source: the `ComputedRefImpl` constructor — `this._dirty = true`, the
effect is created with the getter but not run, `this._cacheable = !isSSR`
(with `isSSR = false` here).  `_value` is still unassigned (`undefined`).
The getter has executed zero times. -/
def mkComputed : ComputedModel :=
  { _dirty := true, _cacheable := true, _value := .undef, getterRuns := 0 }

/-- Source: the `value` getter of `ComputedRefImpl`:
`if (self._dirty || !self._cacheable) { self._dirty = false; self._value = self.effect.run(); } return self._value`.
Running the effect executes the getter, whose current result is `g`. -/
def computedValueGet (g : JSVal) (c : ComputedModel) : JSVal × ComputedModel :=
  if c._dirty ∨ ¬c._cacheable then
    let c' : ComputedModel :=
      { _dirty := false, _cacheable := c._cacheable, _value := g,
        getterRuns := c.getterRuns + 1 }
    (c'._value, c')
  else
    (c._value, c)

/-- Source: the scheduler installed on the computed's inner effect:
`() => { if (!this._dirty) { this._dirty = true; triggerRefValue(this); } }`.
It marks the cache stale and (not modelled here) notifies subscribers; it
never executes the getter. -/
def computedNotify (c : ComputedModel) : ComputedModel :=
  if ¬c._dirty then { c with _dirty := true } else c

/-!
## The reactive proxy `set` trap (`createSetter`) and the readonly handlers

Model of the base-handler `set` trap produced by `createSetter(shallow)`
and of `readonlyHandlers.set` / `readonlyHandlers.deleteProperty`.

Property values stored in a target are either primitives or ref objects
(`RefImpl`s); a ref is identified by its `cell` (JS object identity) whose
current raw value lives in `refHeap`.  `ro` models `isReadonly` of the ref
(for example a readonly computed ref).  On these values `toRaw` is the
identity (neither primitives nor `RefImpl`s carry `__v_raw`), `isShallow`
is `false` (plain `ref()`s), and `Object.is` coincides with structural
equality because distinct ref objects have distinct cells.
-/

inductive SVal where
  | prim (v : JSVal)
  | refv (ro : Bool) (cell : Nat)
deriving DecidableEq, Repr

/-- Source: `isRef(r)` — `!!(r && r.__v_isRef === true)`. -/
def isRefS : SVal → Bool
  | .refv _ _ => true
  | .prim _ => false

/-- Source: `isReadonly(value)` — `!!(value && value.__v_isReadonly)`;
of the values modelled here only readonly refs carry the flag. -/
def isReadonlyS : SVal → Bool
  | .refv ro _ => ro
  | .prim _ => false

/-- `Object.is` on stored values: structural equality (ref identity is its
cell). Used by the `hasChanged(value, oldValue)` check of the set trap. -/
def svalChanged (value oldValue : SVal) : Bool :=
  value ≠ oldValue

/-- The proxied raw target: a plain object (own-key list `dom`) or an
array (`isArr`, with `len` modelling `target.length`).  Keys are modelled
as integer-like indices, so `isIntegerKey(key)` holds.  `props` is total;
keys outside `dom` (resp. `≥ len`) hold `prim .undef`, matching JS reads
of missing properties. -/
structure PTarget where
  isArr : Bool
  len : Nat
  dom : List Nat
  props : Nat → SVal

/-- Kinds of `trigger(target, type, key)` calls issued by the set trap. -/
inductive TrigKind where
  | add
  | set
deriving DecidableEq, Repr

/-- State threaded through the set trap: the raw target, the raw values of
all ref cells, and instrumentation logs of `trigger` and
`triggerRefValue` calls. -/
structure HState where
  tgt : PTarget
  refHeap : Nat → JSVal
  triggers : List (TrigKind × Nat)
  refTriggers : List Nat

/-- Source: the `value` setter of `RefImpl` (reached by the set trap's
`oldValue.value = value` write-through): `newVal = toRaw(newVal)` (identity
here); `if (hasChanged(newVal, this._rawValue)) { this._rawValue = newVal;
this._value = newVal; triggerRefValue(this); }`. -/
def refWrite (s : HState) (cell : Nat) (newVal : JSVal) : HState :=
  if hasChanged newVal (s.refHeap cell) then
    { s with refHeap := Function.update s.refHeap cell newVal,
             refTriggers := s.refTriggers ++ [cell] }
  else s

/-- Source: `Reflect.set(target, key, value, receiver)` on the raw target:
store the value; growing an array past its end updates `length`, and a new
own key is appended to a plain object's key list. -/
def objSet (t : PTarget) (k : Nat) (v : SVal) : PTarget :=
  if t.isArr then
    { t with props := Function.update t.props k v, len := max t.len (k + 1) }
  else
    { t with props := Function.update t.props k v,
             dom := if k ∈ t.dom then t.dom else t.dom ++ [k] }

/-- Source: the `set` trap returned by `createSetter(shallow)`.  Returns
the trap's boolean result together with the post-state.

Faithfulness notes against the source:
* `let oldValue = target[key]` is `s.tgt.props k`.
* the guard `if (isReadonly(oldValue) && isRef(oldValue) && !isRef(value))
  return false` is the first branch;
* inside `if (!shallow && !isReadonly(value))`, the `toRaw` normalisation
  of `value`/`oldValue` is the identity on the values modelled here, so
  the nested `if (!isArray(target) && isRef(oldValue) && !isRef(value))`
  write-through condition is folded into one conjunction;
* `hadKey` is `Number(key) < target.length` for integer keys of arrays and
  `hasOwn(target, key)` otherwise;
* `target === toRaw(receiver)` holds because the trap is entered through
  the target's own proxy, so the `add`/`set` trigger branch always runs. -/
def setTrap (shallow : Bool) (s : HState) (k : Nat) (value : SVal) : Bool × HState :=
  let oldValue := s.tgt.props k
  if isReadonlyS oldValue ∧ isRefS oldValue ∧ ¬isRefS value then
    (false, s)
  else if ¬shallow ∧ ¬isReadonlyS value ∧
          (¬s.tgt.isArr ∧ isRefS oldValue ∧ ¬isRefS value) then
    -- `oldValue.value = value; return true` — value is a non-ref here
    match value with
    | .prim p =>
        match oldValue with
        | .refv _ cell => (true, refWrite s cell p)
        | .prim _ => (true, s)   -- unreachable: the guard requires isRef(oldValue)
    | .refv _ _ => (true, s)     -- unreachable: the guard requires ¬isRef(value)
  else
    let hadKey : Bool := if s.tgt.isArr then k < s.tgt.len else k ∈ s.tgt.dom
    let s' : HState := { s with tgt := objSet s.tgt k value }
    if ¬hadKey then
      (true, { s' with triggers := s'.triggers ++ [(TrigKind.add, k)] })
    else if svalChanged value oldValue then
      (true, { s' with triggers := s'.triggers ++ [(TrigKind.set, k)] })
    else
      (true, s')

/-- Source: `readonlyHandlers.set(target, key) { return true }` (the DEV
warning is compiled out in this production bundle): the assignment is
swallowed — nothing is written, nothing is triggered, and the trap reports
success so strict mode raises no TypeError. -/
def readonlySetTrap (s : HState) (k : Nat) (v : SVal) : Bool × HState :=
  (true, s)

/-- Source: `readonlyHandlers.deleteProperty(target, key) { return true }`. -/
def readonlyDeleteTrap (s : HState) (k : Nat) : Bool × HState :=
  (true, s)

/-!
## Reactive wrapping (`createReactiveObject` and the four wrapper entry points)

Model of the proxy-creation layer.  A value is a primitive, a raw object
(identified by `rid`), or a proxy (identified by `pid`).  A raw object
carries exactly what `getTargetType` inspects: its class (already reduced
by `targetTypeMap` to common/collection/invalid), its `__v_skip` mark and
its extensibility.  A proxy record stores the wrapped target and which of
the four handler variants it was created with.  The four `WeakMap` memo
tables (`reactiveMap`, `shallowReactiveMap`, `readonlyMap`,
`shallowReadonlyMap`) become association lists keyed by value identity.
-/

/-- `targetTypeMap(toRawType(value))`: Object/Array are COMMON,
Map/Set/WeakMap/WeakSet are COLLECTION, anything else INVALID. -/
inductive TType where
  | invalid
  | common
  | collection
deriving DecidableEq, Repr

structure RawObj where
  ttype : TType
  skip : Bool
  extensible : Bool
deriving DecidableEq, Repr

/-- The four handler/memo variants of `createReactiveObject`. -/
inductive Variant where
  | mutableV
  | shallowReactiveV
  | readonlyV
  | shallowReadonlyV
deriving DecidableEq, Repr

inductive RVal where
  | primv (v : JSVal)
  | rawv (rid : Nat)
  | proxy (pid : Nat)
deriving DecidableEq, Repr

structure ProxyRec where
  target : RVal
  variant : Variant
deriving DecidableEq, Repr

structure RState where
  raws : Nat → RawObj
  proxies : Nat → ProxyRec
  nextPid : Nat
  reactiveMap : List (RVal × Nat)
  shallowReactiveMap : List (RVal × Nat)
  readonlyMap : List (RVal × Nat)
  shallowReadonlyMap : List (RVal × Nat)

/-- `WeakMap.prototype.get` on the modelled memo table (first match by
value identity). -/
def mapGet : List (RVal × Nat) → RVal → Option Nat
  | [], _ => none
  | (a, p) :: rest, t => if a = t then some p else mapGet rest t

/-- Source: `isObject(val)` — `val !== null && typeof val === 'object'`. -/
def isObjectR : RVal → Bool
  | .primv _ => false
  | .rawv _ => true
  | .proxy _ => true

def variantReadonly : Variant → Bool
  | .readonlyV => true
  | .shallowReadonlyV => true
  | .mutableV => false
  | .shallowReactiveV => false

/-- `value["__v_isReadonly"]`: the get traps answer the flag query with the
handler's `isReadonly` parameter; raw objects and primitives lack the
flag. -/
def isReadonlyR (s : RState) : RVal → Bool
  | .proxy p => variantReadonly (s.proxies p).variant
  | .rawv _ => false
  | .primv _ => false

/-- `value["__v_isReactive"]`: the get traps answer with `!isReadonly`. -/
def isReactiveFlagR (s : RState) : RVal → Bool
  | .proxy p => ¬variantReadonly (s.proxies p).variant
  | .rawv _ => false
  | .primv _ => false

/-- Truthiness of `target["__v_raw"]`: the get traps return the (object,
hence truthy) target when the receiver is the memoized proxy — which our
proxies always are; raw objects and primitives answer `undefined`. -/
def hasRawFlag : RVal → Bool
  | .proxy _ => true
  | .rawv _ => false
  | .primv _ => false

/-- Source: `getTargetType(value)` —
`value["__v_skip"] || !Object.isExtensible(value) ? INVALID : targetTypeMap(toRawType(value))`.
Reading `__v_skip`, extensibility and the class of a proxy all forward to
its underlying target, so the function recurses through proxy records;
the fuel bounds the proxy-chain length (any `nextPid` suffices for states
built by the wrappers themselves). -/
def getTargetTypeR (s : RState) : Nat → RVal → TType
  | _, .primv _ => .invalid
  | _, .rawv r =>
      if (s.raws r).skip ∨ ¬(s.raws r).extensible then .invalid else (s.raws r).ttype
  | 0, .proxy _ => .invalid
  | fuel + 1, .proxy p => getTargetTypeR s fuel (s.proxies p).target

def mapOfVariant (s : RState) : Variant → List (RVal × Nat)
  | .mutableV => s.reactiveMap
  | .shallowReactiveV => s.shallowReactiveMap
  | .readonlyV => s.readonlyMap
  | .shallowReadonlyV => s.shallowReadonlyMap

def setMapOfVariant (s : RState) : Variant → List (RVal × Nat) → RState
  | .mutableV, m => { s with reactiveMap := m }
  | .shallowReactiveV, m => { s with shallowReactiveMap := m }
  | .readonlyV, m => { s with readonlyMap := m }
  | .shallowReadonlyV, m => { s with shallowReadonlyMap := m }

/-- Source: `createReactiveObject(target, isReadonly, baseHandlers,
collectionHandlers, proxyMap)`.  The two handler arguments only select the
trap implementations installed on the new proxy; in the model they are
summarised by the `variant` (which also names the memo table, as each call
site passes the matching pair). -/
def createReactiveObject (s : RState) (target : RVal) (isRO : Bool) (var : Variant) :
    RVal × RState :=
  if ¬isObjectR target then (target, s)
  else if hasRawFlag target ∧ ¬(isRO ∧ isReactiveFlagR s target) then (target, s)
  else
    match mapGet (mapOfVariant s var) target with
    | some pid => (.proxy pid, s)
    | none =>
        if getTargetTypeR s s.nextPid target = .invalid then (target, s)
        else
          let pid := s.nextPid
          let s' : RState :=
            { s with proxies := Function.update s.proxies pid ⟨target, var⟩,
                     nextPid := pid + 1 }
          (.proxy pid, setMapOfVariant s' var (mapOfVariant s var ++ [(target, pid)]))

/-- Source: `reactive(target)` — `if (isReadonly(target)) return target;`
then `createReactiveObject(target, false, mutableHandlers,
mutableCollectionHandlers, reactiveMap)`. -/
def reactiveR (s : RState) (t : RVal) : RVal × RState :=
  if isReadonlyR s t then (t, s) else createReactiveObject s t false .mutableV

/-- Source: `shallowReactive(target)`. -/
def shallowReactiveR (s : RState) (t : RVal) : RVal × RState :=
  createReactiveObject s t false .shallowReactiveV

/-- Source: `readonly(target)`. -/
def readonlyR (s : RState) (t : RVal) : RVal × RState :=
  createReactiveObject s t true .readonlyV

/-- Modelled from the spec: the `shallowReadonly(target)` wrapper is
tree-shaken out of this bundle (only its memo table `shallowReadonlyMap`
and its handlers survive); per the spec it wraps with its own memo table
and readonly behaviour, i.e. `createReactiveObject(target, true,
shallowReadonlyHandlers, shallowReadonlyCollectionHandlers,
shallowReadonlyMap)`. -/
def shallowReadonlyR (s : RState) (t : RVal) : RVal × RState :=
  createReactiveObject s t true .shallowReadonlyV

/-!
## The effect / dependency-tracking core

Model of `ReactiveEffect`, the per-(target,key) dependency sets with their
bitmask generation markers, `track`/`trackEffects`,
`trigger`/`triggerEffects`/`triggerEffect`, `initDepMarkers`,
`finalizeDepMarkers` and `cleanupEffect`.

The flattened key space: a `Key` stands for one (target, key) pair of the
`targetMap` — or equally for one ref, whose `dep` behaves identically
(`trackRefValue`/`triggerRefValue` call the same `trackEffects`/
`triggerEffects`).  `store` holds each key's current raw value.
`depOf` is total, with absent entries equal to `createDep` — the same
semantics as the source's lazily created sets.

An effect's wrapped function is a small program of tracked reads
(possibly branching on a value it read), writes, and an optional throw;
this is exactly the shape of user computations the specification's
claims quantify over.  Effects in this model have no `scheduler` option,
so `triggerEffect` invokes `run()` directly; `computed` marks effects
ordered into the first pass of `triggerEffects`.  The global mutable
bookkeeping (`activeEffect` with the `parent` chain — here one stack —,
`shouldTrack`, `effectTrackDepth`; `trackOpBit` is the derived value
`1 <<< effectTrackDepth`) lives in `Sys`.  `runLog` is instrumentation:
the ids of effects whose `fn` started executing, in order. -/

abbrev Key := Nat
abbrev EffId := Nat

/-- A dependency set: the subscribed effects (a JS `Set`: insertion order,
no duplicates) plus the two bitmask generation markers `w`
("was tracked") and `n` ("newly tracked"). -/
structure Dep where
  effs : List EffId
  w : Nat
  n : Nat
deriving DecidableEq, Repr

/-- Source: `createDep()` — an empty set with cleared markers. -/
def createDep : Dep := ⟨[], 0, 0⟩

/-- Source: `const maxMarkerBits = 30`. -/
def maxMarkerBits : Nat := 30

/-- Source: `wasTracked(dep)` — `(dep.w & trackOpBit) > 0`. -/
def wasTracked (d : Dep) (bit : Nat) : Bool := 0 < d.w &&& bit

/-- Source: `newTracked(dep)` — `(dep.n & trackOpBit) > 0`. -/
def newTracked (d : Dep) (bit : Nat) : Bool := 0 < d.n &&& bit

/-- The wrapped function of an effect, as a program over the tracked
store: a sequence of tracked reads (`read`), a tracked read branching on
the read value's truthiness (`readIf`), reactive writes (`write`), ending
by returning or throwing. -/
inductive Prog where
  | ret
  | throwErr
  | read (k : Key) (rest : Prog)
  | readIf (k : Key) (thn els : Prog)
  | write (k : Key) (v : JSVal) (rest : Prog)
deriving DecidableEq, Repr

structure Effect where
  fn : Prog
  active : Bool
  allowRecurse : Bool
  computed : Bool
  deps : List Key
deriving DecidableEq, Repr

structure Sys where
  store : Key → JSVal
  depOf : Key → Dep
  effs : EffId → Effect
  activeStack : List EffId
  shouldTrack : Bool
  effectTrackDepth : Nat
  runLog : List EffId

/-- The derived global `trackOpBit = 1 <<< effectTrackDepth` (the source
keeps it in a separate variable updated in lockstep with the depth). -/
def trackOpBit (s : Sys) : Nat := 2 ^ s.effectTrackDepth

/-- `Set.prototype.add`: append unless present. -/
def setAdd (l : List EffId) (e : EffId) : List EffId :=
  if e ∈ l then l else l ++ [e]

/-- Source: `initDepMarkers({ deps })` — `deps[i].w |= trackOpBit` for
every dep the effect is subscribed to.  The source loops over the `deps`
array; since `|=` is idempotent and the iterations touch distinct sets
(the array holds no duplicates), the loop acts pointwise. -/
def initDepMarkers (s : Sys) (eid : EffId) : Sys :=
  { s with depOf := fun k =>
      if k ∈ (s.effs eid).deps then
        { s.depOf k with w := (s.depOf k).w ||| trackOpBit s }
      else s.depOf k }

/-- Source: `cleanupEffect(effect)` — delete the effect from every dep in
its `deps` array, then clear the array (pointwise for the same reason). -/
def cleanupEffect (s : Sys) (eid : EffId) : Sys :=
  { s with
    depOf := fun k =>
      if k ∈ (s.effs eid).deps then
        { s.depOf k with effs := (s.depOf k).effs.erase eid }
      else s.depOf k,
    effs := Function.update s.effs eid { s.effs eid with deps := [] } }

/-- `x &= ~trackOpBit`: clearing the single-bit mask `trackOpBit` from
`x`.  Subtracting the masked portion (`x - (x &&& bit)`) clears exactly
that bit for any single-bit `bit`, and (unlike `Nat.ldiff`) stays in the
kernel-computable Nat fragment. -/
def clearBit (x bit : Nat) : Nat := x - (x &&& bit)

/-- Source: `finalizeDepMarkers(effect)` — for each dep in the effect's
`deps` array: if it was tracked before this run (`w` bit) but not
re-confirmed during it (`n` bit), delete the effect from the set and drop
the dep from the array (the `ptr` compaction); in both cases clear this
run's `w`/`n` bits (`dep.w &= ~trackOpBit`, modelled by `clearBit`).
The loop acts pointwise on the pairwise-distinct entries of `deps`. -/
def finalizeDepMarkers (s : Sys) (eid : EffId) : Sys :=
  { s with
    depOf := fun k =>
      if k ∈ (s.effs eid).deps then
        { effs :=
            if wasTracked (s.depOf k) (trackOpBit s)
                && !(newTracked (s.depOf k) (trackOpBit s)) then
              (s.depOf k).effs.erase eid
            else (s.depOf k).effs,
          w := clearBit (s.depOf k).w (trackOpBit s),
          n := clearBit (s.depOf k).n (trackOpBit s) }
      else s.depOf k,
    effs := Function.update s.effs eid
      { s.effs eid with
          deps := (s.effs eid).deps.filter (fun k =>
            !(wasTracked (s.depOf k) (trackOpBit s)
              && !(newTracked (s.depOf k) (trackOpBit s)))) } }

/-- Source: `trackEffects(dep)` for the current effect `eid`: with the
marker scheme in range, mark the dep newly tracked and add the effect
only when it was not already tracked in the previous generation;
beyond `maxMarkerBits` recursion depth, fall back to a full `Set` lookup. -/
def trackEffects (s : Sys) (k : Key) (eid : EffId) : Sys :=
  if s.effectTrackDepth ≤ maxMarkerBits then
    if ¬ newTracked (s.depOf k) (trackOpBit s) then
      if ¬ wasTracked (s.depOf k) (trackOpBit s) then
        { s with
          depOf := Function.update s.depOf k
            { effs := setAdd (s.depOf k).effs eid, w := (s.depOf k).w,
              n := (s.depOf k).n ||| trackOpBit s },
          effs := Function.update s.effs eid
            { s.effs eid with deps := (s.effs eid).deps ++ [k] } }
      else
        { s with
          depOf := Function.update s.depOf k
            { s.depOf k with n := (s.depOf k).n ||| trackOpBit s } }
    else s
  else
    if eid ∉ (s.depOf k).effs then
      { s with
        depOf := Function.update s.depOf k
          { s.depOf k with effs := setAdd (s.depOf k).effs eid },
        effs := Function.update s.effs eid
          { s.effs eid with deps := (s.effs eid).deps ++ [k] } }
    else s

/-- Source: `track(target, type, key)` — a no-op unless
`shouldTrack && activeEffect`; otherwise `trackEffects` on the (lazily
created) dep of the key, for the currently active effect. -/
def track (s : Sys) (k : Key) : Sys :=
  match s.activeStack with
  | [] => s
  | eid :: _ => if s.shouldTrack then trackEffects s k eid else s

/-- Instrumentation: record that effect `eid`'s wrapped function started
executing. -/
def logRun (s : Sys) (eid : EffId) : Sys :=
  { s with runLog := s.runLog ++ [eid] }

/-- Result of running modelled JS code: normal completion, an exception
propagating (JS state mutations persist past a throw), or interpreter
fuel exhaustion (a model artifact — the source has no such case). -/
inductive RunRes where
  | ok (s : Sys)
  | thrown (s : Sys)
  | fuelOut

/-- Source: the tail of `ReactiveEffect.run()` — the `finally` block:
finalize the dep markers when the marker scheme was in range
(`effectTrackDepth` is still the running depth there), then
`trackOpBit = 1 <<< --effectTrackDepth`, `activeEffect = this.parent`
(the value saved at entry) and `shouldTrack = lastShouldTrack`.
(`deferStop`/`stop()` are outside this model's scope.) -/
def finishRun (savedStack : List EffId) (savedTrack : Bool) (eid : EffId) (t : Sys) : Sys :=
  let t1 := if t.effectTrackDepth ≤ maxMarkerBits then finalizeDepMarkers t eid else t
  { t1 with
    effectTrackDepth := t1.effectTrackDepth - 1,
    activeStack := savedStack,
    shouldTrack := savedTrack }

mutual

/-- Execution of an effect's wrapped function.  A `read` is a reactive
property read / `ref.value` read: `track` then continue; `readIf` in
addition branches on the read value's truthiness; a `write` is a reactive
assignment (see `setKey`).  The fuel (a model artifact; one unit per
step, so any fuel exceeding the total step count gives the source's
behaviour) makes the mutual recursion structural. -/
def interp : Nat → Sys → Prog → RunRes
  | 0, _, _ => .fuelOut
  | _ + 1, s, .ret => .ok s
  | _ + 1, s, .throwErr => .thrown s
  | fuel + 1, s, .read k rest => interp fuel (track s k) rest
  | fuel + 1, s, .readIf k thn els =>
      if truthy (s.store k) then interp fuel (track s k) thn
      else interp fuel (track s k) els
  | fuel + 1, s, .write k v rest =>
      match setKey fuel s k v with
      | .ok s' => interp fuel s' rest
      | r => r

/-- Source: a reactive write to a key — the `value` setter of `RefImpl`
(and equally the guarded SET path of the proxy set trap followed by
`trigger` on the existing key): compare with the previous raw value via
`hasChanged` (`Object.is`), and only on change store the new value and
notify the key's dependency set. -/
def setKey : Nat → Sys → Key → JSVal → RunRes
  | 0, _, _, _ => .fuelOut
  | fuel + 1, s, k, v =>
      if hasChanged v (s.store k) then
        triggerKey fuel { s with store := Function.update s.store k v } k
      else .ok s

/-- Source: `triggerEffects(dep)` — spread the set into an array for
stabilization, then run the computed effects first and all others second
(`computed` flags never change, so reading them before or after the first
pass is equivalent). -/
def triggerKey : Nat → Sys → Key → RunRes
  | 0, _, _ => .fuelOut
  | fuel + 1, s, k =>
      match runAll fuel s (((s.depOf k).effs).filter fun e => (s.effs e).computed) with
      | .ok s' => runAll fuel s' (((s.depOf k).effs).filter fun e => !(s.effs e).computed)
      | r => r

/-- Source: `triggerEffect(effect)` applied to each effect of the batch —
`if (effect !== activeEffect || effect.allowRecurse)` run it (these
effects have no scheduler), else skip it. -/
def runAll : Nat → Sys → List EffId → RunRes
  | 0, _, _ => .fuelOut
  | _ + 1, s, [] => .ok s
  | fuel + 1, s, e :: rest =>
      if s.activeStack.head? = some e ∧ ¬(s.effs e).allowRecurse then
        runAll fuel s rest
      else
        match runEffect fuel s e with
        | .ok s' => runAll fuel s' rest
        | r => r

/-- Source: `ReactiveEffect.run()`.  An inactive effect just runs its
function untracked.  An effect already on the active parent chain returns
immediately (the cycle guard).  Otherwise: push onto the chain, enable
tracking, bump the depth, set the `w` markers (or fall back to a full
cleanup beyond `maxMarkerBits`), execute the function, and restore
everything in the `finally` (`finishRun`) even on a throw. -/
def runEffect : Nat → Sys → EffId → RunRes
  | 0, _, _ => .fuelOut
  | fuel + 1, s, eid =>
      let e := s.effs eid
      if ¬ e.active then interp fuel (logRun s eid) e.fn
      else if eid ∈ s.activeStack then .ok s
      else
        let s1 : Sys :=
          { s with activeStack := eid :: s.activeStack, shouldTrack := true,
                   effectTrackDepth := s.effectTrackDepth + 1 }
        let s2 :=
          if s1.effectTrackDepth ≤ maxMarkerBits then initDepMarkers s1 eid
          else cleanupEffect s1 eid
        match interp fuel (logRun s2 eid) e.fn with
        | .ok t => .ok (finishRun s.activeStack s.shouldTrack eid t)
        | .thrown t => .thrown (finishRun s.activeStack s.shouldTrack eid t)
        | .fuelOut => .fuelOut

end

/-- The keys a program reads, in order of first read, evaluated against
the store contents its branch conditions see (a read-only program leaves
the store unchanged, so all conditions see the initial store). -/
def progReads (store : Key → JSVal) : Prog → List Key
  | .ret => []
  | .throwErr => []
  | .read k rest => k :: progReads store rest
  | .readIf k thn els =>
      k :: (if truthy (store k) then progReads store thn else progReads store els)
  | .write _ _ rest => progReads store rest

/-- Programs containing no reactive write. -/
def noWrite : Prog → Bool
  | .ret => true
  | .throwErr => true
  | .read _ rest => noWrite rest
  | .readIf _ thn els => noWrite thn && noWrite els
  | .write _ _ _ => false

/-- Programs that neither write nor throw: every execution completes
normally, performing only tracked reads. -/
def readOnlyProg : Prog → Bool
  | .ret => true
  | .throwErr => false
  | .read _ rest => readOnlyProg rest
  | .readIf _ thn els => readOnlyProg thn && readOnlyProg els
  | .write _ _ _ => false

/-- A quiescent one-effect system in which effect `5` both reads and
writes key `0` during its own execution (`obj.k = obj.k`-style
self-mutation): the scenario of the recursion-guard claim. -/
def selfWriteSys : Sys :=
  { store := fun _ => .num 1,
    depOf := fun k => if k = 0 then ⟨[5], 0, 0⟩ else createDep,
    effs := fun e =>
      if e = 5 then ⟨.read 0 (.write 0 (.num 9) .ret), true, false, false, [0]⟩
      else ⟨.ret, false, false, false, []⟩,
    activeStack := [], shouldTrack := true, effectTrackDepth := 0, runLog := [] }

/-- A quiescent one-effect system in which effect `5` is subscribed to
key `0` by reading it (`fn` is a plain tracked read): the scenario of the
change-only-triggering claim. -/
def readerSys : Sys :=
  { store := fun _ => .num 1,
    depOf := fun k => if k = 0 then ⟨[5], 0, 0⟩ else createDep,
    effs := fun e =>
      if e = 5 then ⟨.read 0 .ret, true, false, false, [0]⟩
      else ⟨.ret, false, false, false, []⟩,
    activeStack := [], shouldTrack := true, effectTrackDepth := 0, runLog := [] }

/-- A quiescent one-effect system whose effect `9` reads key `0` and then
throws: the scenario of the exception-safety claim. -/
def throwSys : Sys :=
  { store := fun _ => .num 1,
    depOf := fun _ => createDep,
    effs := fun e =>
      if e = 9 then ⟨.read 0 .throwErr, true, false, false, []⟩
      else ⟨.ret, false, false, false, []⟩,
    activeStack := [], shouldTrack := true, effectTrackDepth := 0, runLog := [] }

/-- The dependency-pruning scenario: effect `7` reads the flag at key `0`
and then conditionally reads key `1` (flag truthy) or key `2` (flag
falsy); initially the flag is truthy and the effect is not yet
subscribed anywhere. -/
def condReadSys : Sys :=
  { store := fun _ => .num 1,
    depOf := fun _ => createDep,
    effs := fun e =>
      if e = 7 then ⟨.readIf 0 (.read 1 .ret) (.read 2 .ret), true, false, false, []⟩
      else ⟨.ret, false, false, false, []⟩,
    activeStack := [], shouldTrack := true, effectTrackDepth := 0, runLog := [] }

/-!
## The scheduler (job queue, pre/post flush lanes, microtask batching)

Model of `queueJob` / `queueFlush` / `queuePreFlushCb` /
`queuePostFlushCb` / `flushPreFlushCbs` / `flushPostFlushCbs` /
`flushJobs` / `nextTick` / `findInsertionIndex`.

A job is identified by `jid` (JS object identity; `includes` and the
`Set`-based dedup compare by identity, so structural equality of `SJob`s
models it).  Jobs in this model are *inert*: executing one
(`callWithErrorHandling(job)`) only records it in `trace` and enqueues
nothing — the shape the batching/ordering claims quantify over.

The single microtask queue `micro` models resolved-promise continuation
scheduling: `queueFlush`'s `resolvedPromise.then(flushJobs)` appends a
`flush` task, and `nextTick(fn)`'s
`(currentFlushPromise || resolvedPromise).then(fn)` appends a `user`
task; continuations run in registration (FIFO) order, and a `flush` task
runs the whole synchronous `flushJobs` before the next task — which is
exactly when a `.then` on `currentFlushPromise` fires.  `thenFlushCount`
is instrumentation counting `resolvedPromise.then(flushJobs)`
registrations. -/

structure SJob where
  jid : Nat
  id : Option Nat
  active : Bool
  allowRecurse : Bool
deriving DecidableEq, Repr

inductive TraceEv where
  | job (j : SJob)
  | tick (u : Nat)
deriving DecidableEq, Repr

inductive MTask where
  | flush
  | user (u : Nat)
deriving DecidableEq, Repr

structure Sched where
  queue : List SJob
  flushIndex : Nat
  pendingPreFlushCbs : List SJob
  activePreFlushCbs : Option (List SJob)
  preFlushIndex : Nat
  pendingPostFlushCbs : List SJob
  activePostFlushCbs : Option (List SJob)
  postFlushIndex : Nat
  isFlushing : Bool
  isFlushPending : Bool
  currentPreFlushParentJob : Option SJob
  micro : List MTask
  thenFlushCount : Nat
  trace : List TraceEv
deriving DecidableEq, Repr

/-- The module-initial scheduler state: empty queues, no flush pending. -/
def initSched : Sched :=
  { queue := [], flushIndex := 0, pendingPreFlushCbs := [],
    activePreFlushCbs := none, preFlushIndex := 0,
    pendingPostFlushCbs := [], activePostFlushCbs := none,
    postFlushIndex := 0, isFlushing := false, isFlushPending := false,
    currentPreFlushParentJob := none, micro := [], thenFlushCount := 0,
    trace := [] }

/-- Source: `getId(job)` — `job.id == null ? Infinity : job.id`, as the
sort key (`⊤` models `Infinity`). -/
def idTop (j : SJob) : WithTop Nat :=
  match j.id with
  | none => ⊤
  | some i => (i : WithTop Nat)

/-- The ordering `getId(a) - getId(b) <= 0` used by the queue sorts. -/
def jobLe (a b : SJob) : Prop := idTop a ≤ idTop b

instance : DecidableRel jobLe := fun a b =>
  inferInstanceAs (Decidable (idTop a ≤ idTop b))

instance : IsTotal SJob jobLe := ⟨fun a b => le_total (idTop a) (idTop b)⟩

instance : IsTrans SJob jobLe := ⟨fun _ _ _ h₁ h₂ => le_trans h₁ h₂⟩

/-- `getId(queue[middle]) < id` in the binary search: `Infinity < id` is
false. -/
def ltNum (a : SJob) (i : Nat) : Bool :=
  match a.id with
  | none => false
  | some x => x < i

/-- JS's stable comparator sort (`Array.prototype.sort` is stable),
modelled by stable insertion sort. -/
def sortByGetId (l : List SJob) : List SJob := List.insertionSort jobLe l

/-- `[...new Set(list)]`: keep the first occurrence of each element
(`seen` accumulates the elements already emitted). -/
def dedupAux : List SJob → List SJob → List SJob
  | _, [] => []
  | seen, a :: rest =>
      if a ∈ seen then dedupAux seen rest else a :: dedupAux (a :: seen) rest

/-- `[...new Set(list)]`. -/
def dedupKeep (l : List SJob) : List SJob := dedupAux [] l

/-- Inert-job execution: `callWithErrorHandling(job, null, SCHEDULER)`
runs the callback, which in this model only records itself. -/
def runJob (s : Sched) (j : SJob) : Sched :=
  { s with trace := s.trace ++ [.job j] }

/-- Source: `queueFlush()` — when neither flushing nor already pending,
mark pending and register `flushJobs` on the resolved promise. -/
def queueFlush (s : Sched) : Sched :=
  if ¬s.isFlushing ∧ ¬s.isFlushPending then
    { s with isFlushPending := true, micro := s.micro ++ [.flush],
             thenFlushCount := s.thenFlushCount + 1 }
  else s

/-- Source: the binary-search loop of `findInsertionIndex`:
`while (start < end) { middle = (start + end) >>> 1; getId(queue[middle]) < id ? start = middle + 1 : end = middle }`.
(`middle < stop ≤ queue.length`, so the `getD` default is never used.)
`gas` bounds the iteration count: the interval shrinks every iteration,
so any `gas` exceeding `stop - start` reproduces the loop exactly; the
caller passes `queue.length + 1`. -/
def fiiGo (q : List SJob) (id : Nat) : Nat → Nat → Nat → Nat
  | 0, start, _ => start
  | gas + 1, start, stop =>
      if start < stop then
        let middle := (start + stop) / 2
        if ltNum (q.getD middle ⟨0, none, true, false⟩) id then
          fiiGo q id gas (middle + 1) stop
        else fiiGo q id gas start middle
      else start

/-- Source: `findInsertionIndex(id)` — search starts at `flushIndex + 1`. -/
def findInsertionIndex (s : Sched) (id : Nat) : Nat :=
  fiiGo s.queue id (s.queue.length + 1) (s.flushIndex + 1) s.queue.length

/-- `queue.splice(i, 0, job)` — insert at index `i`, clamped to the
length (JS splice clamps; note `List.take`/`List.drop` clamp the same
way). -/
def spliceInsert (l : List SJob) (i : Nat) (j : SJob) : List SJob :=
  l.take i ++ j :: l.drop i

/-- Source: `queueJob(job)` — dedupe against the still-to-run portion of
the queue (`includes` from `flushIndex`, or `flushIndex + 1` for an
`allowRecurse` job during a flush), skip the current pre-flush parent
job, then push (no id) or splice at the id-sorted insertion point, and
request a flush. -/
def queueJob (s : Sched) (j : SJob) : Sched :=
  if (s.queue = [] ∨ j ∉ s.queue.drop
      (if s.isFlushing ∧ j.allowRecurse then s.flushIndex + 1 else s.flushIndex))
      ∧ some j ≠ s.currentPreFlushParentJob then
    match j.id with
    | none => queueFlush { s with queue := s.queue ++ [j] }
    | some i =>
        queueFlush { s with queue := spliceInsert s.queue (findInsertionIndex s i) j }
  else s

/-- Source: `nextTick(fn)` —
`(currentFlushPromise || resolvedPromise).then(fn)`: the callback runs
after the currently scheduled flush completes (FIFO in the microtask
model). -/
def nextTick (s : Sched) (u : Nat) : Sched :=
  { s with micro := s.micro ++ [.user u] }

/-- Source: `queueCb(cb, activePreFlushCbs, pendingPreFlushCbs,
preFlushIndex)` for a single callback: dedupe against the still-to-run
portion of the active queue (if one is running), push onto the pending
queue, request a flush. -/
def queuePreFlushCb (s : Sched) (cb : SJob) : Sched :=
  let ok :=
    match s.activePreFlushCbs with
    | none => true
    | some act =>
        cb ∉ act.drop (if cb.allowRecurse then s.preFlushIndex + 1 else s.preFlushIndex)
  queueFlush (if ok then { s with pendingPreFlushCbs := s.pendingPreFlushCbs ++ [cb] } else s)

/-- Source: `queueCb(cb, activePostFlushCbs, pendingPostFlushCbs,
postFlushIndex)` for a single callback. -/
def queuePostFlushCb (s : Sched) (cb : SJob) : Sched :=
  let ok :=
    match s.activePostFlushCbs with
    | none => true
    | some act =>
        cb ∉ act.drop (if cb.allowRecurse then s.postFlushIndex + 1 else s.postFlushIndex)
  queueFlush (if ok then { s with pendingPostFlushCbs := s.pendingPostFlushCbs ++ [cb] } else s)

/-- Source: `flushPreFlushCbs(seen, parentJob)` — snapshot and dedupe the
pending callbacks, run them in order, then recurse until the pending
queue stays empty.  The fuel bounds the recursion (a model artifact;
with inert callbacks one round drains everything). -/
def flushPreFlushCbs (fuel : Nat) (s : Sched) (parentJob : Option SJob) : Sched :=
  match fuel with
  | 0 => s
  | fuel + 1 =>
      if s.pendingPreFlushCbs ≠ [] then
        let act := dedupKeep s.pendingPreFlushCbs
        let s1 : Sched :=
          { s with currentPreFlushParentJob := parentJob,
                   activePreFlushCbs := some act, pendingPreFlushCbs := [] }
        let s2 := act.foldl runJob s1
        let s3 : Sched :=
          { s2 with activePreFlushCbs := none, preFlushIndex := 0,
                    currentPreFlushParentJob := none }
        flushPreFlushCbs fuel s3 parentJob
      else s

/-- Source: `flushPostFlushCbs(seen)` — first flush any pre-flush
callbacks, then dedupe the pending post queue; if a post queue is already
active, append to it; otherwise sort by id and run. -/
def flushPostFlushCbs (fuel : Nat) (s : Sched) : Sched :=
  let s := flushPreFlushCbs fuel s none
  if s.pendingPostFlushCbs ≠ [] then
    let deduped := dedupKeep s.pendingPostFlushCbs
    let s1 : Sched := { s with pendingPostFlushCbs := [] }
    match s1.activePostFlushCbs with
    | some act => { s1 with activePostFlushCbs := some (act ++ deduped) }
    | none =>
        let act := sortByGetId deduped
        let s2 : Sched := { s1 with activePostFlushCbs := some act }
        let s3 := act.foldl runJob s2
        { s3 with activePostFlushCbs := none, postFlushIndex := 0 }
  else s

/-- Source: `flushJobs(seen)` — clear the pending flag, mark flushing,
run all pre-flush callbacks, sort the main queue by ascending id
(`Infinity` for id-less jobs), run every job whose `active !== false`
(with inert jobs the queue is fixed during the loop, so the
index-advancing loop is a fold), then the `finally` block: reset the
cursor, clear the queue, flush post-flush callbacks, clear the flushing
flag, and keep flushing until everything drains. -/
def flushJobs (fuel : Nat) (s : Sched) : Sched :=
  match fuel with
  | 0 => s
  | fuel + 1 =>
      let s := { s with isFlushPending := false, isFlushing := true }
      let s := flushPreFlushCbs fuel s none
      let s := { s with queue := sortByGetId s.queue }
      let s := s.queue.foldl (fun t j => if j.active then runJob t j else t) s
      let s := { s with flushIndex := 0, queue := [] }
      let s := flushPostFlushCbs fuel s
      let s := { s with isFlushing := false }
      if s.queue.isEmpty && s.pendingPreFlushCbs.isEmpty && s.pendingPostFlushCbs.isEmpty then s
      else flushJobs fuel s

/-- Drain the microtask queue in FIFO order: a `flush` task runs
`flushJobs`, a `user` task runs a `nextTick` callback. -/
def drainMicro (fuel : Nat) (s : Sched) : Sched :=
  match fuel with
  | 0 => s
  | fuel + 1 =>
      match s.micro with
      | [] => s
      | .flush :: rest => drainMicro fuel (flushJobs fuel { s with micro := rest })
      | .user u :: rest =>
          drainMicro fuel { s with micro := rest, trace := s.trace ++ [.tick u] }

/-- A synchronous block of mutations: the `queueJob` calls it issues. -/
def queueJobs (s : Sched) (js : List SJob) : Sched := js.foldl queueJob s

/-- The scheduler state after one `queueJob j` from the pristine state:
the job queued, a single flush registered on the microtask queue. -/
def enqueuedOnce (j : SJob) : Sched :=
  { initSched with
      queue := [j], isFlushPending := true, micro := [.flush], thenFlushCount := 1 }

/-!
## Proof infrastructure for the tracking core

`progSize` bounds the interpreter steps of a write-free program;
`progThrows` decides whether the branch a program takes under a given
store ends in a throw; `pruneScenario` packages the concrete
dependency-pruning experiment (run, flip the flag, re-run, trigger the
abandoned branch); `RunInv` is the state invariant holding while a
top-level effect executes with the depth-1 marker bit, and `BaseHyps`
the quiescent-state facts it builds on.
-/

def progSize : Prog → Nat
  | .ret => 1
  | .throwErr => 1
  | .read _ rest => 1 + progSize rest
  | .readIf _ thn els => 1 + max (progSize thn) (progSize els)
  | .write _ _ rest => 1 + progSize rest

/-- Whether the branch taken under `store` ends in `throwErr` (meaningful
for write-free programs, whose branch conditions see `store` unchanged). -/
def progThrows (store : Key → JSVal) : Prog → Bool
  | .ret => false
  | .throwErr => true
  | .read _ rest => progThrows store rest
  | .readIf k thn els =>
      if truthy (store k) then progThrows store thn else progThrows store els
  | .write _ _ rest => progThrows store rest

/-- The dependency-pruning experiment on `condReadSys`: run effect `7`
(it reads keys 0 and 1), flip the flag at key 0 so the triggered re-run
reads keys 0 and 2 instead, then write to the abandoned key 1.  Records
the final run log and whether effect `7` is still subscribed to keys 1
and 2 after the re-run. -/
def pruneScenario : Option (List EffId × List EffId × List EffId) :=
  match runEffect 10 condReadSys 7 with
  | .ok s1 =>
      match setKey 20 s1 0 (.num 0) with
      | .ok s2 =>
          match setKey 20 s2 1 (.num 5) with
          | .ok s3 => some (s3.runLog, (s2.depOf 1).effs, (s2.depOf 2).effs)
          | _ => none
      | _ => none
  | _ => none

/-- Invariant holding while the top-level effect `eid` executes its
write-free function: `dep₀` is the dependency table before the run,
`origDeps` the effect's previous subscription list, `R` the keys read so
far.  The `w` markers record the previous subscriptions, the `n` markers
the re-confirmed ones, membership grows exactly by the newly read keys,
and the effect's `deps` array is the old list plus the new keys. -/
def RunInv (eid : EffId) (store₀ : Key → JSVal) (dep₀ : Key → Dep)
    (origDeps : List Key) (s : Sys) (R : List Key) : Prop :=
  s.store = store₀
  ∧ s.activeStack = [eid]
  ∧ s.shouldTrack = true
  ∧ s.effectTrackDepth = 1
  ∧ (∀ k, (s.depOf k).w = if k ∈ origDeps then (dep₀ k).w ||| 2 else (dep₀ k).w)
  ∧ (∀ k, (s.depOf k).n = if k ∈ R then (dep₀ k).n ||| 2 else (dep₀ k).n)
  ∧ (∀ k, (s.depOf k).effs
      = if k ∈ R ∧ k ∉ origDeps then (dep₀ k).effs ++ [eid] else (dep₀ k).effs)
  ∧ ∃ newKs, (s.effs eid).deps = origDeps ++ newKs
      ∧ (∀ k, k ∈ newKs ↔ (k ∈ R ∧ k ∉ origDeps)) ∧ newKs.Nodup

/-- Facts about the quiescent state the run starts from: the depth-1
marker bits are clear, dependency-set membership of `eid` coincides with
its `deps` array, and both are duplicate-free. -/
def BaseHyps (eid : EffId) (dep₀ : Key → Dep) (origDeps : List Key) : Prop :=
  (∀ k, (dep₀ k).w.testBit 1 = false)
  ∧ (∀ k, (dep₀ k).n.testBit 1 = false)
  ∧ (∀ k, eid ∈ (dep₀ k).effs ↔ k ∈ origDeps)
  ∧ origDeps.Nodup
  ∧ (∀ k, (dep₀ k).effs.Nodup)

/-!
# Theorems

Claim theorems (with their witnesses and counterexamples) and the helper
lemmas they share, in claim order except that shared helpers come first
in each group.
-/

/-- Claim C3: for every computed `c = computed(getter)`, the getter does
not execute at construction time nor at any point before `c.value` is
first read; and between two reads of `c.value` with no intervening change
to the getter's dependencies the getter executes at most once — the
second read returns the cached value without re-executing it.  Stated on
the model: construction leaves `getterRuns = 0` and only a `value` read
can increment it (a dependency notification never does); the first read
computes the getter's value once, and a further read of a clean cached
computed returns the cached value with no state change. -/
theorem computed_lazy_and_cached :
    mkComputed.getterRuns = 0
    ∧ (∀ c : ComputedModel, (computedNotify c).getterRuns = c.getterRuns)
    ∧ (∀ g : JSVal,
        (computedValueGet g mkComputed).2.getterRuns = 1
        ∧ (computedValueGet g mkComputed).1 = g)
    ∧ (∀ (g : JSVal) (c : ComputedModel), c._dirty = false → c._cacheable = true →
        computedValueGet g c = (c._value, c)) := by
  refine ⟨rfl, fun c => ?_, fun g => ?_, fun g c hd hc => ?_⟩
  · unfold computedNotify
    split <;> rfl
  · exact ⟨rfl, rfl⟩
  · unfold computedValueGet
    rw [hd, hc]
    simp

/-- Witness for `computed_lazy_and_cached`: the cached-read clause at the
state reached by one read from a fresh computed. -/
theorem computed_lazy_and_cached_witness :
    computedValueGet (.num 5) ⟨false, true, .num 5, 1⟩
      = (.num 5, ⟨false, true, .num 5, 1⟩) :=
  computed_lazy_and_cached.2.2.2 (.num 5) ⟨false, true, .num 5, 1⟩ rfl rfl

/-- Claim C10: on a readonly proxy over a plain object, assigning to any
property and deleting any property are silent no-ops: the trap returns
`true` (so strict mode raises no TypeError), the raw target is left
completely unchanged, and no trigger is issued (the whole state — target,
ref heap and both trigger logs — is returned untouched). -/
theorem readonly_set_delete_noop :
    ∀ (s : HState) (k : Nat) (v : SVal),
      readonlySetTrap s k v = (true, s) ∧ readonlyDeleteTrap s k = (true, s) :=
  fun _ _ _ => ⟨rfl, rfl⟩

/-- Counterexample to Claim C8 as stated: for an *array* target —
a non-shallow, non-readonly target — whose slot `0` holds a non-readonly
ref while the incoming value `2` is not a ref, the set trap does *not*
write through the ref's `.value`: it replaces the ref with the primitive
(the ref's cell keeps its old raw value `1`, and no ref trigger is
issued), because the write-through branch requires `!isArray(target)`. -/
theorem setTrap_array_counterexample :
    ((setTrap false
        ⟨⟨true, 1, [], fun _ => .refv false 0⟩, fun _ => .num 1, [], []⟩
        0 (.prim (.num 2))).2.tgt.props 0 = .prim (.num 2))
    ∧ ((setTrap false
        ⟨⟨true, 1, [], fun _ => .refv false 0⟩, fun _ => .num 1, [], []⟩
        0 (.prim (.num 2))).2.refHeap 0 = .num 1)
    ∧ ((setTrap false
        ⟨⟨true, 1, [], fun _ => .refv false 0⟩, fun _ => .num 1, [], []⟩
        0 (.prim (.num 2))).2.refTriggers = [])
    ∧ ¬((setTrap false
        ⟨⟨true, 1, [], fun _ => .refv false 0⟩, fun _ => .num 1, [], []⟩
        0 (.prim (.num 2))).2.refHeap 0 = .num 2) := by
  refine ⟨?_, ?_, ?_, ?_⟩ <;> decide

/-- Claim C8, amended: in the reactive proxy's set trap, (1) if the old
value at the written key is a readonly ref and the new value is not a
ref, the assignment is rejected — the handler returns `false` and the
state (target and refs) is unchanged; (2) if the target is non-shallow,
non-readonly *and not an array*, the old value at the key is a
non-readonly ref and the new value is not a ref, the assignment writes
through the ref's `.value` rather than replacing the ref — the handler
returns `true`, the target still holds the ref, and the ref's raw value
becomes the assigned primitive. -/
theorem setTrap_ref_semantics :
    ∀ (shallow : Bool) (s : HState) (k : Nat) (ro : Bool) (cell : Nat) (p : JSVal),
      s.tgt.props k = .refv ro cell →
      (ro = true → setTrap shallow s k (.prim p) = (false, s))
      ∧ (ro = false → s.tgt.isArr = false →
          setTrap false s k (.prim p) = (true, refWrite s cell p)
          ∧ (setTrap false s k (.prim p)).2.tgt = s.tgt
          ∧ (setTrap false s k (.prim p)).2.refHeap cell = p) := by
  intro shallow s k ro cell p hold
  constructor
  · intro hro
    subst hro
    unfold setTrap
    rw [hold]
    simp [isReadonlyS, isRefS]
  · intro hro harr
    subst hro
    have hmain : setTrap false s k (.prim p) = (true, refWrite s cell p) := by
      unfold setTrap
      rw [hold]
      simp [isReadonlyS, isRefS, harr]
    refine ⟨hmain, ?_, ?_⟩
    · rw [hmain]
      unfold refWrite
      split <;> rfl
    · rw [hmain]
      unfold refWrite
      split
      · simp
      · next h =>
        simp only [hasChanged, ne_eq, decide_not, Bool.not_eq_true',
          decide_eq_false_iff_not, not_not] at h
        exact h.symm

/-- Witness for `setTrap_ref_semantics`: a plain-object slot holding a
non-readonly ref with raw value `1`, assigned the primitive `2` — the
trap returns `true` and the ref's cell now holds `2`; a readonly ref slot
rejects the same assignment with `false`. -/
theorem setTrap_ref_semantics_witness :
    (setTrap true
        ⟨⟨false, 0, [0], fun _ => .refv true 0⟩, fun _ => .num 1, [], []⟩
        0 (.prim (.num 2)))
      = (false, ⟨⟨false, 0, [0], fun _ => .refv true 0⟩, fun _ => .num 1, [], []⟩)
    ∧ (setTrap false
        ⟨⟨false, 0, [0], fun _ => .refv false 0⟩, fun _ => .num 1, [], []⟩
        0 (.prim (.num 2))).2.refHeap 0 = .num 2 := by
  constructor
  · exact (setTrap_ref_semantics true
      ⟨⟨false, 0, [0], fun _ => .refv true 0⟩, fun _ => .num 1, [], []⟩
      0 true 0 (.num 2) rfl).1 rfl
  · exact ((setTrap_ref_semantics false
      ⟨⟨false, 0, [0], fun _ => .refv false 0⟩, fun _ => .num 1, [], []⟩
      0 false 0 (.num 2) rfl).2 rfl rfl).2.2

/-! ### Claim C2 helpers -/

theorem mapGet_append_none {m : List (RVal × Nat)} {t : RVal} {p : Nat}
    (h : mapGet m t = none) : mapGet (m ++ [(t, p)]) t = some p := by
  induction m with
  | nil => simp [mapGet]
  | cons a rest ih =>
      unfold mapGet at h ⊢
      split at h
      · exact absurd h (by simp)
      · next hne =>
        simp only [List.cons_append]
        rw [if_neg hne]
        exact ih h

theorem mapGet_mem {m : List (RVal × Nat)} {t : RVal} {p : Nat}
    (h : mapGet m t = some p) : (t, p) ∈ m := by
  induction m with
  | nil => simp [mapGet] at h
  | cons a rest ih =>
      unfold mapGet at h
      split at h
      · next heq =>
        cases a
        simp_all
      · exact List.mem_cons_of_mem _ (ih h)

theorem mapOfVariant_setMapOfVariant (s : RState) (var : Variant)
    (m : List (RVal × Nat)) :
    mapOfVariant (setMapOfVariant s var m) var = m := by
  cases var <;> rfl

theorem setMapOfVariant_proxies (s : RState) (var : Variant)
    (m : List (RVal × Nat)) :
    (setMapOfVariant s var m).proxies = s.proxies := by
  cases var <;> rfl

/-- Evaluation of `createReactiveObject` on a raw object already in the
variant's memo table: the existing proxy is returned, state unchanged. -/
theorem CRO_raw_found (s : RState) (r : Nat) (isRO : Bool) (var : Variant)
    (pid : Nat) (hfind : mapGet (mapOfVariant s var) (.rawv r) = some pid) :
    createReactiveObject s (.rawv r) isRO var = (.proxy pid, s) := by
  unfold createReactiveObject
  simp [isObjectR, hasRawFlag, hfind]

/-- Evaluation of `createReactiveObject` on an eligible raw object not
yet in the variant's memo table: a fresh proxy is created and memoized. -/
theorem CRO_raw_new (s : RState) (r : Nat) (isRO : Bool) (var : Variant)
    (hfind : mapGet (mapOfVariant s var) (.rawv r) = none)
    (hvalid : getTargetTypeR s s.nextPid (.rawv r) ≠ .invalid) :
    createReactiveObject s (.rawv r) isRO var =
      (.proxy s.nextPid,
        setMapOfVariant
          { s with proxies := Function.update s.proxies s.nextPid ⟨.rawv r, var⟩,
                   nextPid := s.nextPid + 1 }
          var (mapOfVariant s var ++ [(.rawv r, s.nextPid)])) := by
  unfold createReactiveObject
  simp [isObjectR, hasRawFlag, hfind, hvalid]

/-- Evaluation of `createReactiveObject` on a proxy with `isReadonly`
argument `false`: the already-a-proxy check returns the proxy itself. -/
theorem CRO_proxy_skip (s : RState) (p : Nat) (var : Variant) :
    createReactiveObject s (.proxy p) false var = (.proxy p, s) := by
  unfold createReactiveObject
  simp [isObjectR, hasRawFlag]

/-- After `createReactiveObject` on an eligible raw object, the result is
a proxy of the requested variant and a repeat call returns it from the
memo table with the state unchanged. -/
theorem CRO_raw_memo (s : RState) (r : Nat) (isRO : Bool) (var : Variant)
    (hskip : (s.raws r).skip = false) (hext : (s.raws r).extensible = true)
    (httype : (s.raws r).ttype ≠ .invalid)
    (hwf : ∀ pr ∈ mapOfVariant s var, (s.proxies pr.2).variant = var) :
    ∃ pid s',
      createReactiveObject s (.rawv r) isRO var = (.proxy pid, s')
      ∧ (s'.proxies pid).variant = var
      ∧ createReactiveObject s' (.rawv r) isRO var = (.proxy pid, s') := by
  cases hfind : mapGet (mapOfVariant s var) (.rawv r) with
  | some pid =>
      exact ⟨pid, s, CRO_raw_found s r isRO var pid hfind,
        hwf _ (mapGet_mem hfind), CRO_raw_found s r isRO var pid hfind⟩
  | none =>
      have hty : getTargetTypeR s s.nextPid (.rawv r) ≠ .invalid := by
        have : getTargetTypeR s s.nextPid (.rawv r) = (s.raws r).ttype := by
          cases s.nextPid <;> simp [getTargetTypeR, hskip, hext]
        rw [this]
        exact httype
      refine ⟨s.nextPid,
        setMapOfVariant
          { s with proxies := Function.update s.proxies s.nextPid ⟨.rawv r, var⟩,
                   nextPid := s.nextPid + 1 }
          var (mapOfVariant s var ++ [(.rawv r, s.nextPid)]), ?_, ?_, ?_⟩
      · exact CRO_raw_new s r isRO var hfind hty
      · rw [setMapOfVariant_proxies]
        simp [Function.update]
      · have hget : mapGet
            (mapOfVariant (setMapOfVariant
              { s with proxies := Function.update s.proxies s.nextPid ⟨.rawv r, var⟩,
                       nextPid := s.nextPid + 1 }
              var (mapOfVariant s var ++ [(.rawv r, s.nextPid)])) var) (.rawv r)
            = some s.nextPid := by
          rw [mapOfVariant_setMapOfVariant]
          exact mapGet_append_none hfind
        rw [CRO_raw_found _ r isRO var s.nextPid hget]

/-- Claim C2: reactive wrapping is idempotent and memoized per
(raw target, variant): for an eligible raw object `x` (not marked raw,
extensible, of a wrappable class), `reactive (reactive x) = reactive x`
(same proxy, same state); repeated calls of the same wrapper function —
`reactive`, `shallowReactive`, `readonly`, `shallowReadonly` — on `x`
return the identical proxy with the state unchanged; and
`reactive (readonly x)` returns the existing readonly wrapper itself
rather than a fresh proxy.  The well-formedness hypothesis says each memo
table only holds proxies of its own variant, which every wrapper call
preserves. -/
theorem reactive_wrapping_memoized (s : RState) (r : Nat)
    (hskip : (s.raws r).skip = false) (hext : (s.raws r).extensible = true)
    (httype : (s.raws r).ttype ≠ .invalid)
    (hwf : ∀ var : Variant, ∀ pr ∈ mapOfVariant s var,
      (s.proxies pr.2).variant = var) :
    reactiveR (reactiveR s (.rawv r)).2 (reactiveR s (.rawv r)).1
        = reactiveR s (.rawv r)
    ∧ reactiveR (reactiveR s (.rawv r)).2 (.rawv r) = reactiveR s (.rawv r)
    ∧ shallowReactiveR (shallowReactiveR s (.rawv r)).2 (.rawv r)
        = shallowReactiveR s (.rawv r)
    ∧ readonlyR (readonlyR s (.rawv r)).2 (.rawv r) = readonlyR s (.rawv r)
    ∧ shallowReadonlyR (shallowReadonlyR s (.rawv r)).2 (.rawv r)
        = shallowReadonlyR s (.rawv r)
    ∧ reactiveR (readonlyR s (.rawv r)).2 (readonlyR s (.rawv r)).1
        = readonlyR s (.rawv r) := by
  have hro : isReadonlyR s (.rawv r) = false := rfl
  obtain ⟨pm, sm, hm, hmv, hmm⟩ :=
    CRO_raw_memo s r false .mutableV hskip hext httype (hwf .mutableV)
  obtain ⟨ps, ss, hs, hsv, hsm⟩ :=
    CRO_raw_memo s r false .shallowReactiveV hskip hext httype (hwf .shallowReactiveV)
  obtain ⟨pr, sr, hr, hrv, hrm⟩ :=
    CRO_raw_memo s r true .readonlyV hskip hext httype (hwf .readonlyV)
  obtain ⟨pq, sq, hq, hqv, hqm⟩ :=
    CRO_raw_memo s r true .shallowReadonlyV hskip hext httype (hwf .shallowReadonlyV)
  have hreact : reactiveR s (.rawv r) = (.proxy pm, sm) := by
    unfold reactiveR
    rw [hro]
    simpa using hm
  refine ⟨?_, ?_, ?_, ?_, ?_, ?_⟩
  · -- idempotence: the result is a mutable-variant proxy, so the repeat
    -- call short-circuits at the already-a-proxy check
    rw [hreact]
    show reactiveR sm (.proxy pm) = (.proxy pm, sm)
    have hro2 : isReadonlyR sm (.proxy pm) = false := by
      simp [isReadonlyR, hmv, variantReadonly]
    unfold reactiveR
    rw [hro2]
    simp [CRO_proxy_skip]
  · rw [hreact]
    show reactiveR sm (.rawv r) = (.proxy pm, sm)
    unfold reactiveR
    rw [show isReadonlyR sm (.rawv r) = false from rfl]
    simp [hmm]
  · unfold shallowReactiveR
    rw [hs]
    show createReactiveObject ss (.rawv r) false .shallowReactiveV = (.proxy ps, ss)
    exact hsm
  · unfold readonlyR
    rw [hr]
    show createReactiveObject sr (.rawv r) true .readonlyV = (.proxy pr, sr)
    exact hrm
  · unfold shallowReadonlyR
    rw [hq]
    show createReactiveObject sq (.rawv r) true .shallowReadonlyV = (.proxy pq, sq)
    exact hqm
  · -- reactive(readonly x): isReadonly of the readonly proxy is true, so
    -- reactive returns it unchanged
    unfold readonlyR
    rw [hr]
    show reactiveR sr (.proxy pr) = (.proxy pr, sr)
    unfold reactiveR
    rw [show isReadonlyR sr (.proxy pr) = true by
      simp [isReadonlyR, hrv, variantReadonly]]
    simp

/-- Witness for `reactive_wrapping_memoized`: a one-raw-object state with
empty memo tables; the object is a plain eligible `Object`. -/
theorem reactive_wrapping_memoized_witness :
    reactiveR (reactiveR ⟨fun _ => ⟨.common, false, true⟩,
        fun _ => ⟨.primv .undef, .mutableV⟩, 0, [], [], [], []⟩ (.rawv 0)).2
        (reactiveR ⟨fun _ => ⟨.common, false, true⟩,
          fun _ => ⟨.primv .undef, .mutableV⟩, 0, [], [], [], []⟩ (.rawv 0)).1
      = reactiveR ⟨fun _ => ⟨.common, false, true⟩,
          fun _ => ⟨.primv .undef, .mutableV⟩, 0, [], [], [], []⟩ (.rawv 0) :=
  (reactive_wrapping_memoized
    ⟨fun _ => ⟨.common, false, true⟩, fun _ => ⟨.primv .undef, .mutableV⟩,
      0, [], [], [], []⟩ 0 rfl rfl (by decide)
    (by intro var pr h; cases var <;> simp [mapOfVariant] at h)).1

/-! ### Claim C4 / C7 helpers: projections of the tracking operations -/

theorem trackEffects_runLog (s : Sys) (k : Key) (eid : EffId) :
    (trackEffects s k eid).runLog = s.runLog := by
  simp only [trackEffects]
  split
  · split
    · split <;> rfl
    · rfl
  · split <;> rfl

theorem track_runLog (s : Sys) (k : Key) : (track s k).runLog = s.runLog := by
  unfold track
  split
  · rfl
  · split
    · exact trackEffects_runLog _ _ _
    · rfl

theorem finishRun_runLog (sa : List EffId) (st : Bool) (eid : EffId) (t : Sys) :
    (finishRun sa st eid t).runLog = t.runLog := by
  unfold finishRun
  split <;> rfl

theorem finishRun_activeStack (sa : List EffId) (st : Bool) (eid : EffId) (t : Sys) :
    (finishRun sa st eid t).activeStack = sa := rfl

/-- Computation of `run()` for a subscribed-read effect (`fn` reads one
key and returns) started from a quiescent system. -/
theorem runEffect_read_ret (fuel : Nat) (s : Sys) (eid : EffId) (k : Key)
    (hactive : (s.effs eid).active = true) (hstack : s.activeStack = [])
    (hfn : (s.effs eid).fn = .read k .ret) (hdepth : s.effectTrackDepth = 0) :
    ∃ t, runEffect (fuel + 3) s eid = .ok t
      ∧ t.runLog = s.runLog ++ [eid] ∧ t.activeStack = s.activeStack := by
  refine ⟨finishRun s.activeStack s.shouldTrack eid
      (track (logRun (initDepMarkers
        { s with activeStack := eid :: s.activeStack, shouldTrack := true,
                 effectTrackDepth := s.effectTrackDepth + 1 } eid) eid) k), ?_, ?_, ?_⟩
  · show runEffect (fuel + 2 + 1) s eid = _
    simp only [runEffect]
    rw [hfn]
    simp [hactive, hstack, hdepth, maxMarkerBits, interp]
  · rw [finishRun_runLog, track_runLog]
    rfl
  · exact finishRun_activeStack _ _ _ _

/-- Claim C4: for a ref `r` with an effect subscribed by reading
`r.value`, assigning a value equal to the current raw value under
`Object.is` does not re-run the effect (the write is a complete no-op),
while assigning a different value re-runs the subscribed effect exactly
once (`runLog` gains exactly one entry for it). -/
theorem ref_change_only_trigger :
    (∀ (fuel : Nat) (s : Sys) (k : Key) (v : JSVal),
      hasChanged v (s.store k) = false → setKey (fuel + 1) s k v = .ok s)
    ∧ (∀ (fuel : Nat) (s : Sys) (k : Key) (v : JSVal) (eid : EffId),
        hasChanged v (s.store k) = true → s.activeStack = [] →
        (s.depOf k).effs = [eid] → (s.effs eid).active = true →
        (s.effs eid).computed = false → (s.effs eid).fn = .read k .ret →
        s.effectTrackDepth = 0 →
        ∃ s', setKey (fuel + 6) s k v = .ok s'
          ∧ s'.runLog = s.runLog ++ [eid]) := by
  constructor
  · intro fuel s k v hch
    simp only [setKey]
    simp [hch]
  · intro fuel s k v eid hch hstack hdep hact hcomp hfn hdepth
    have hsk : setKey (fuel + 6) s k v
        = triggerKey (fuel + 5) { s with store := Function.update s.store k v } k := by
      show setKey (fuel + 5 + 1) s k v = _
      simp only [setKey]
      simp [hch]
    obtain ⟨t, hrt, hlog, _⟩ :=
      runEffect_read_ret fuel { s with store := Function.update s.store k v } eid k
        hact hstack hfn hdepth
    have htr : triggerKey (fuel + 5) { s with store := Function.update s.store k v } k
        = .ok t := by
      show triggerKey (fuel + 4 + 1) _ _ = _
      simp only [triggerKey]
      have hfilter1 :
          (({ s with store := Function.update s.store k v } : Sys).depOf k).effs.filter
            (fun e => (({ s with store := Function.update s.store k v } : Sys).effs e).computed)
          = [] := by
        show ((s.depOf k).effs.filter fun e => (s.effs e).computed) = []
        rw [hdep]
        simp [List.filter, hcomp]
      have hfilter2 :
          (({ s with store := Function.update s.store k v } : Sys).depOf k).effs.filter
            (fun e => !(({ s with store := Function.update s.store k v } : Sys).effs e).computed)
          = [eid] := by
        show ((s.depOf k).effs.filter fun e => !(s.effs e).computed) = [eid]
        rw [hdep]
        simp [List.filter, hcomp]
      rw [hfilter1, hfilter2]
      have hempty : runAll (fuel + 4) { s with store := Function.update s.store k v } []
          = .ok { s with store := Function.update s.store k v } := by
        show runAll (fuel + 3 + 1) _ _ = _
        simp only [runAll]
      rw [hempty]
      show runAll (fuel + 3 + 1) _ [eid] = _
      simp only [runAll]
      have hcond : ¬(({ s with store := Function.update s.store k v } : Sys).activeStack.head?
          = some eid ∧ ¬(({ s with store := Function.update s.store k v } : Sys).effs eid).allowRecurse) := by
        show ¬(s.activeStack.head? = some eid ∧ _)
        rw [hstack]
        simp
      rw [if_neg hcond, hrt]
    exact ⟨t, by rw [hsk, htr], by simpa using hlog⟩

/-- Witness for `ref_change_only_trigger`: in the quiescent system
`readerSys` effect `5` is subscribed to key `0` holding `1`; writing `1`
again is a no-op, writing `7` runs the effect exactly once. -/
theorem ref_change_only_trigger_witness :
    setKey 1 readerSys 0 (.num 1) = .ok readerSys
    ∧ ∃ s', setKey 6 readerSys 0 (.num 7) = .ok s' ∧ s'.runLog = [5] := by
  constructor
  · exact ref_change_only_trigger.1 0 readerSys 0 (.num 1) (by decide)
  · obtain ⟨s', h1, h2⟩ := ref_change_only_trigger.2 0 readerSys 0 (.num 7) 5
      (by decide) rfl (by decide) (by decide) (by decide) (by decide) rfl
    exact ⟨s', h1, by simpa using h2⟩

/-- Claim C7: an effect that writes to a (target,key) it also reads does
not recurse infinitely and by default is not re-invoked by that write:
(1) a trigger reaching the currently active effect skips it unless
`allowRecurse` is set; (2) `run()` on an effect already on the active
parent chain returns immediately without re-entering; and (3) in the
concrete self-read-write scenario `selfWriteSys`, an external write
terminates with the effect having run exactly once. -/
theorem effect_no_self_recursion :
    (∀ (fuel : Nat) (s : Sys) (e : EffId) (rest : List EffId),
      s.activeStack.head? = some e → (s.effs e).allowRecurse = false →
      runAll (fuel + 1) s (e :: rest) = runAll fuel s rest)
    ∧ (∀ (fuel : Nat) (s : Sys) (eid : EffId),
        (s.effs eid).active = true → eid ∈ s.activeStack →
        runEffect (fuel + 1) s eid = .ok s)
    ∧ (match setKey 20 selfWriteSys 0 (.num 2) with
        | .ok t => some t.runLog
        | _ => none) = some [5] := by
  refine ⟨?_, ?_, by decide⟩
  · intro fuel s e rest hhead har
    simp only [runAll]
    rw [if_pos ⟨hhead, by simp [har]⟩]
  · intro fuel s eid hact hmem
    simp only [runEffect]
    simp [hact, hmem]

/-- Witness for `effect_no_self_recursion`: the guard clauses applied in
`selfWriteSys` with effect `5` as the running effect. -/
theorem effect_no_self_recursion_witness :
    runAll 4 { selfWriteSys with activeStack := [5] } [5]
      = runAll 3 { selfWriteSys with activeStack := [5] } []
    ∧ runEffect 3 { selfWriteSys with activeStack := [5] } 5
      = .ok { selfWriteSys with activeStack := [5] } := by
  constructor
  · exact effect_no_self_recursion.1 3 { selfWriteSys with activeStack := [5] } 5 []
      (by decide) (by decide)
  · exact effect_no_self_recursion.2.1 2 { selfWriteSys with activeStack := [5] } 5
      (by decide) (by decide)

/-! ### Claim C5 / C6 helpers: computing an inert flush -/

theorem foldl_runJob (l : List SJob) (s : Sched) :
    l.foldl runJob s = { s with trace := s.trace ++ l.map .job } := by
  induction l generalizing s with
  | nil => simp
  | cons a rest ih =>
      simp only [List.foldl_cons, List.map_cons]
      rw [ih]
      simp [runJob]

theorem foldl_runActive (l : List SJob) (s : Sched) :
    l.foldl (fun t j => if j.active then runJob t j else t) s
      = { s with trace := s.trace ++ (l.filter (fun j => j.active)).map .job } := by
  induction l generalizing s with
  | nil => simp
  | cons a rest ih =>
      by_cases ha : a.active
      · simp only [List.foldl_cons, ha, if_true, List.filter_cons_of_pos ha,
          List.map_cons]
        rw [ih]
        simp [runJob]
      · simp only [List.foldl_cons, ha, if_false, List.filter_cons_of_neg ha]
        rw [ih]
        simp [ha]

/-- One inert round of `flushPreFlushCbs` drains the pending pre-flush
callbacks: each deduped callback runs once, in order. -/
theorem flushPre_inert (fuel : Nat) (s : Sched)
    (h1 : s.activePreFlushCbs = none) (h2 : s.preFlushIndex = 0)
    (h3 : s.currentPreFlushParentJob = none) :
    flushPreFlushCbs (fuel + 2) s none
      = { s with pendingPreFlushCbs := [],
                 trace := s.trace ++ (dedupKeep s.pendingPreFlushCbs).map .job } := by
  obtain ⟨q, fi, pre, apre, pfi, post, apost, pofi, ifl, ifp, cur, mic, cnt, tr⟩ := s
  simp only at h1 h2 h3
  subst h1 h2 h3
  show flushPreFlushCbs (fuel + 1 + 1) _ none = _
  simp only [flushPreFlushCbs]
  by_cases hp : pre = []
  · subst hp
    simp [dedupKeep, dedupAux]
  · rw [if_pos (by simpa using hp)]
    rw [foldl_runJob]
    simp only [flushPreFlushCbs]
    simp

/-- An inert `flushPostFlushCbs` with no pre-flush work left: the deduped
pending post callbacks run once each, in ascending id order. -/
theorem flushPost_inert (fuel : Nat) (s : Sched)
    (hpp : s.pendingPreFlushCbs = [])
    (h1 : s.activePostFlushCbs = none) (h2 : s.postFlushIndex = 0) :
    flushPostFlushCbs (fuel + 1) s
      = { s with pendingPostFlushCbs := [],
                 trace := s.trace
                   ++ (sortByGetId (dedupKeep s.pendingPostFlushCbs)).map .job } := by
  obtain ⟨q, fi, pre, apre, pfi, post, apost, pofi, ifl, ifp, cur, mic, cnt, tr⟩ := s
  simp only at hpp h1 h2
  subst hpp h1 h2
  unfold flushPostFlushCbs
  have hpre : flushPreFlushCbs (fuel + 1)
      ⟨q, fi, [], apre, pfi, post, none, 0, ifl, ifp, cur, mic, cnt, tr⟩ none
      = ⟨q, fi, [], apre, pfi, post, none, 0, ifl, ifp, cur, mic, cnt, tr⟩ := by
    simp only [flushPreFlushCbs]
    simp
  rw [hpre]
  by_cases hp : post = []
  · subst hp
    simp [dedupKeep, dedupAux, sortByGetId, List.insertionSort]
  · rw [if_pos (by simpa using hp)]
    simp [foldl_runJob]

/-- An inert flush, end to end: pre-flush callbacks run first, then the
main queue sorted by ascending id and filtered to `active !== false`
jobs, then the post-flush callbacks; all cursors and queues are reset. -/
theorem flushJobs_inert (fuel : Nat) (s : Sched)
    (h1 : s.activePreFlushCbs = none) (h2 : s.preFlushIndex = 0)
    (h3 : s.currentPreFlushParentJob = none)
    (h4 : s.activePostFlushCbs = none) (h5 : s.postFlushIndex = 0) :
    flushJobs (fuel + 3) s
      = { s with queue := [], flushIndex := 0, pendingPreFlushCbs := [],
                 pendingPostFlushCbs := [], isFlushing := false,
                 isFlushPending := false,
                 trace := s.trace ++ (dedupKeep s.pendingPreFlushCbs).map .job
                   ++ ((sortByGetId s.queue).filter (fun j => j.active)).map .job
                   ++ (sortByGetId (dedupKeep s.pendingPostFlushCbs)).map .job } := by
  obtain ⟨q, fi, pre, apre, pfi, post, apost, pofi, ifl, ifp, cur, mic, cnt, tr⟩ := s
  simp only at h1 h2 h3 h4 h5
  subst h1 h2 h3 h4 h5
  show flushJobs (fuel + 2 + 1) _ = _
  rw [flushJobs]
  rw [flushPre_inert fuel _ rfl rfl rfl]
  simp only
  rw [foldl_runActive]
  simp only
  rw [show fuel + 2 = fuel + 1 + 1 from rfl]
  rw [flushPost_inert (fuel + 1) _ rfl rfl rfl]
  simp [List.append_assoc]

/-- Claim C6: within one inert flush, all pending pre-flush callbacks run
before any main-queue job and the post-flush callbacks run after the main
queue (the trace equation); the main-queue jobs execute in ascending
numeric id order regardless of enqueue order, with id-less jobs (id `⊤`)
after all jobs with ids (`Sorted jobLe`); jobs marked inactive are
skipped, and every active queued job runs. -/
theorem flush_ordering (fuel : Nat) (s : Sched)
    (h1 : s.activePreFlushCbs = none) (h2 : s.preFlushIndex = 0)
    (h3 : s.currentPreFlushParentJob = none)
    (h4 : s.activePostFlushCbs = none) (h5 : s.postFlushIndex = 0) :
    (flushJobs (fuel + 3) s).trace
      = s.trace ++ (dedupKeep s.pendingPreFlushCbs).map .job
        ++ ((sortByGetId s.queue).filter (fun j => j.active)).map .job
        ++ (sortByGetId (dedupKeep s.pendingPostFlushCbs)).map .job
    ∧ ((sortByGetId s.queue).filter (fun j => j.active)).Sorted jobLe
    ∧ (∀ j : SJob, j.active = false →
        j ∉ (sortByGetId s.queue).filter (fun j => j.active))
    ∧ (∀ j ∈ s.queue, j.active = true →
        j ∈ (sortByGetId s.queue).filter (fun j => j.active)) := by
  refine ⟨by rw [flushJobs_inert fuel s h1 h2 h3 h4 h5], ?_, ?_, ?_⟩
  · exact (List.sorted_insertionSort jobLe s.queue).filter _
  · intro j hj hmem
    rcases List.mem_filter.mp hmem with ⟨_, hact⟩
    simp [hj] at hact
  · intro j hj hact
    refine List.mem_filter.mpr ⟨?_, by simp [hact]⟩
    exact ((List.perm_insertionSort jobLe s.queue).mem_iff).mpr hj

/-- Witness for `flush_ordering`: a two-job queue with ids 2 and 1
enqueued in that order plus an inactive job and one pre- and post-flush
callback each; the flush runs the pre callback, then the active main jobs
in id order 1, 2, then the post callback. -/
theorem flush_ordering_witness :
    (flushJobs 3
        { initSched with
            queue := [⟨20, some 2, true, false⟩, ⟨10, some 1, true, false⟩,
                      ⟨30, some 3, false, false⟩],
            pendingPreFlushCbs := [⟨1, none, true, false⟩],
            pendingPostFlushCbs := [⟨2, none, true, false⟩] }).trace
      = [.job ⟨1, none, true, false⟩, .job ⟨10, some 1, true, false⟩,
         .job ⟨20, some 2, true, false⟩, .job ⟨2, none, true, false⟩] := by
  rw [(flush_ordering 0
      { initSched with
          queue := [⟨20, some 2, true, false⟩, ⟨10, some 1, true, false⟩,
                    ⟨30, some 3, false, false⟩],
          pendingPreFlushCbs := [⟨1, none, true, false⟩],
          pendingPostFlushCbs := [⟨2, none, true, false⟩] }
      rfl rfl rfl rfl rfl).1]
  decide

/-! ### Claim C5 helpers -/

theorem spliceInsert_nil (i : Nat) (j : SJob) : spliceInsert [] i j = [j] := by
  simp [spliceInsert]

/-- The flush-scheduling potential: `thenFlushCount` plus one available
registration when no flush is pending.  `queueFlush` preserves it. -/
theorem queueFlush_phi (s : Sched) :
    (queueFlush s).thenFlushCount
        + (if (queueFlush s).isFlushPending = true then 0 else 1)
      = s.thenFlushCount + (if s.isFlushPending = true then 0 else 1) := by
  unfold queueFlush
  split
  · next h => simp [h.2]
  · rfl

theorem queueJob_phi (s : Sched) (j : SJob) :
    (queueJob s j).thenFlushCount
        + (if (queueJob s j).isFlushPending = true then 0 else 1)
      = s.thenFlushCount + (if s.isFlushPending = true then 0 else 1) := by
  unfold queueJob
  by_cases h : (s.queue = [] ∨ j ∉ s.queue.drop
      (if s.isFlushing ∧ j.allowRecurse then s.flushIndex + 1 else s.flushIndex))
      ∧ some j ≠ s.currentPreFlushParentJob
  · rw [if_pos h]
    cases j.id with
    | none => exact queueFlush_phi _
    | some i => exact queueFlush_phi _
  · rw [if_neg h]

theorem queueJobs_phi (js : List SJob) (s : Sched) :
    (queueJobs s js).thenFlushCount
        + (if (queueJobs s js).isFlushPending = true then 0 else 1)
      = s.thenFlushCount + (if s.isFlushPending = true then 0 else 1) := by
  induction js generalizing s with
  | nil => rfl
  | cons a rest ih =>
      have hstep : queueJobs s (a :: rest) = queueJobs (queueJob s a) rest := rfl
      rw [hstep, ih (queueJob s a), queueJob_phi]

/-- Claim C5: all synchronous mutations within one tick coalesce into a
single flush.  (1) Enqueuing a job already present in the still-to-run
portion of the queue is a complete no-op; (2) across any synchronous
block of `queueJob` calls started with no flush pending, at most one
flush is registered via the resolved promise's `.then` (`thenFlushCount`
grows by at most one); (3) a job runs at most once per flush: the flush's
trace gains each queued job at most once; (4) the re-run happens after a
microtask boundary: enqueuing the same job three times and then calling
`nextTick` yields the job's single run followed by the `nextTick`
callback. -/
theorem scheduler_batches_mutations :
    (∀ (s : Sched) (j : SJob),
      s.queue ≠ [] →
      j ∈ s.queue.drop
        (if s.isFlushing ∧ j.allowRecurse then s.flushIndex + 1 else s.flushIndex) →
      queueJob s j = s)
    ∧ (∀ (s : Sched) (js : List SJob), s.isFlushPending = false →
        (queueJobs s js).thenFlushCount ≤ s.thenFlushCount + 1)
    ∧ (∀ (fuel : Nat) (s : Sched),
        s.activePreFlushCbs = none → s.preFlushIndex = 0 →
        s.currentPreFlushParentJob = none → s.activePostFlushCbs = none →
        s.postFlushIndex = 0 → s.pendingPreFlushCbs = [] →
        s.pendingPostFlushCbs = [] → s.queue.Nodup →
        (flushJobs (fuel + 3) s).trace
          = s.trace ++ ((sortByGetId s.queue).filter (fun j => j.active)).map .job
        ∧ ((sortByGetId s.queue).filter (fun j => j.active)).Nodup)
    ∧ (∀ (j : SJob) (u : Nat), j.active = true →
        (drainMicro 10 (nextTick (queueJobs initSched [j, j, j]) u)).trace
          = [.job j, .tick u]
        ∧ (nextTick (queueJobs initSched [j, j, j]) u).thenFlushCount = 1) := by
  have hdedup : ∀ (s : Sched) (j : SJob),
      s.queue ≠ [] →
      j ∈ s.queue.drop
        (if s.isFlushing ∧ j.allowRecurse then s.flushIndex + 1 else s.flushIndex) →
      queueJob s j = s := by
    intro s j hq hmem
    unfold queueJob
    rw [if_neg]
    intro ⟨h1, _⟩
    rcases h1 with h | h
    · exact hq h
    · exact h hmem
  refine ⟨hdedup, ?_, ?_, ?_⟩
  · intro s js hpend
    have := queueJobs_phi js s
    rw [hpend] at this
    simp only [Bool.false_eq_true, if_false] at this
    omega
  · intro fuel s h1 h2 h3 h4 h5 hpre hpost hnodup
    constructor
    · rw [flushJobs_inert fuel s h1 h2 h3 h4 h5]
      rw [hpre, hpost]
      simp [dedupKeep, dedupAux, sortByGetId, List.insertionSort]
    · have hperm := List.perm_insertionSort jobLe s.queue
      exact (hperm.nodup_iff.mpr hnodup).filter _
  · intro j u hj
    have hq1 : queueJob initSched j = enqueuedOnce j := by
      unfold queueJob
      rw [if_pos ⟨Or.inl rfl, by simp [initSched]⟩]
      cases hid : j.id with
      | none => simp [initSched, enqueuedOnce, queueFlush]
      | some i => simp [initSched, enqueuedOnce, queueFlush, spliceInsert_nil]
    have hq2 : queueJob (enqueuedOnce j) j = enqueuedOnce j := by
      apply hdedup
      · simp [enqueuedOnce, initSched]
      · simp [enqueuedOnce, initSched]
    have hqs : queueJobs initSched [j, j, j] = enqueuedOnce j := by
      show queueJob (queueJob (queueJob initSched j) j) j = _
      rw [hq1, hq2, hq2]
    have hnt : nextTick (queueJobs initSched [j, j, j]) u
        = { enqueuedOnce j with micro := [.flush, .user u] } := by
      rw [hqs]
      rfl
    refine ⟨?_, by rw [hnt]; rfl⟩
    rw [hnt]
    show (drainMicro (9 + 1) _).trace = _
    rw [drainMicro]
    simp only
    have hflush : flushJobs 9 { enqueuedOnce j with micro := [.user u] }
        = { initSched with micro := [.user u], thenFlushCount := 1, trace := [.job j] } := by
      rw [show (9 : Nat) = 6 + 3 from rfl]
      rw [flushJobs_inert 6 _ rfl rfl rfl rfl rfl]
      simp [initSched, enqueuedOnce, dedupKeep, dedupAux, sortByGetId,
        List.insertionSort, List.orderedInsert, hj]
    rw [hflush]
    show (drainMicro (8 + 1) _).trace = _
    rw [drainMicro]
    simp only
    show (drainMicro (7 + 1) _).trace = _
    rw [drainMicro]
    rfl

/-- Witness for `scheduler_batches_mutations`: an id-less active job
enqueued three times from the pristine state, followed by `nextTick`:
one flush registration, one run, then the tick callback. -/
theorem scheduler_batches_mutations_witness :
    (drainMicro 10
        (nextTick (queueJobs initSched
          [⟨3, none, true, false⟩, ⟨3, none, true, false⟩,
           ⟨3, none, true, false⟩]) 42)).trace
      = [.job ⟨3, none, true, false⟩, .tick 42]
    ∧ queueJob { initSched with queue := [⟨3, none, true, false⟩] }
        ⟨3, none, true, false⟩
      = { initSched with queue := [⟨3, none, true, false⟩] } := by
  constructor
  · exact (scheduler_batches_mutations.2.2.2 ⟨3, none, true, false⟩ 42 rfl).1
  · exact scheduler_batches_mutations.1
      { initSched with queue := [⟨3, none, true, false⟩] }
      ⟨3, none, true, false⟩ (by simp) (by decide)

/-! ### Claim C1 / C9 helpers: the depth-1 marker-bit algebra -/

theorem and_two_pos_iff (a : Nat) : (0 < a &&& 2) ↔ a.testBit 1 = true := by
  rw [show (2 : Nat) = 2 ^ 1 from rfl, Nat.and_two_pow]
  cases h : a.testBit 1 <;> simp [h]

theorem wasTracked_two (d : Dep) : wasTracked d 2 = d.w.testBit 1 := by
  simp only [wasTracked]
  by_cases h : d.w.testBit 1 = true
  · rw [h]
    exact decide_eq_true ((and_two_pos_iff _).mpr h)
  · rw [eq_false_of_ne_true h]
    exact decide_eq_false (fun hc => h ((and_two_pos_iff _).mp hc))

theorem newTracked_two (d : Dep) : newTracked d 2 = d.n.testBit 1 := by
  simp only [newTracked]
  by_cases h : d.n.testBit 1 = true
  · rw [h]
    exact decide_eq_true ((and_two_pos_iff _).mpr h)
  · rw [eq_false_of_ne_true h]
    exact decide_eq_false (fun hc => h ((and_two_pos_iff _).mp hc))

theorem testBit_or_two (a : Nat) : (a ||| 2).testBit 1 = true := by
  rw [Nat.testBit_lor, show (2 : Nat) = 2 ^ 1 from rfl, Nat.testBit_two_pow_self]
  simp

theorem lor_two_of_clear (a : Nat) (h : a.testBit 1 = false) : a ||| 2 = a + 2 := by
  have hb : a.div2.bodd = false := by
    rw [show (1 : Nat) = Nat.succ 0 from rfl, Nat.testBit_succ, Nat.testBit_zero] at h
    have hmod : a / 2 % 2 = 0 := by
      rcases Nat.mod_two_eq_zero_or_one (a / 2) with h0 | h1
      · exact h0
      · rw [h1] at h
        simp at h
    have hcond := Nat.mod_two_of_bodd (a / 2)
    rw [hmod] at hcond
    rw [Nat.div2_val]
    cases hbo : (a / 2).bodd
    · rfl
    · rw [hbo] at hcond
      simp at hcond
  have hsplit : 2 * a.div2.div2 = a.div2 := by
    conv_rhs => rw [← Nat.bit_decomp a.div2, hb, Nat.bit_val]
    simp
  have hdiv : a.div2 ||| 1 = a.div2 + 1 := by
    conv_lhs => rw [← Nat.bit_decomp a.div2, hb]
    rw [show (1 : Nat) = Nat.bit true 0 from rfl, Nat.lor_bit]
    simp only [Bool.false_or]
    rw [show a.div2.div2 ||| 0 = a.div2.div2 by simp, Nat.bit_val]
    simp [hsplit]
  conv_lhs => rw [← Nat.bit_decomp a, show (2 : Nat) = Nat.bit false 1 from rfl,
    Nat.lor_bit]
  simp only [Bool.or_false]
  rw [hdiv, Nat.bit_val]
  conv_rhs => rw [← Nat.bit_decomp a, Nat.bit_val]
  ring

theorem clearBit_two_of_clear (a : Nat) (h : a.testBit 1 = false) :
    clearBit a 2 = a := by
  unfold clearBit
  rw [show (2 : Nat) = 2 ^ 1 from rfl, Nat.and_two_pow, h]
  simp

theorem clearBit_or_two (a : Nat) (h : a.testBit 1 = false) :
    clearBit (a ||| 2) 2 = a := by
  unfold clearBit
  have hand : (a ||| 2) &&& 2 = 2 := by
    rw [show ((a ||| 2) &&& 2) = ((a ||| 2) &&& 2 ^ 1) from rfl, Nat.and_two_pow,
      testBit_or_two]
    rfl
  rw [hand, lor_two_of_clear a h]
  simp

/-- One tracked read preserves the run invariant, extending the read set. -/
theorem track_step (eid : EffId) (store₀ : Key → JSVal) (dep₀ : Key → Dep)
    (origDeps : List Key) (hB : BaseHyps eid dep₀ origDeps)
    (s : Sys) (R : List Key) (k : Key)
    (hInv : RunInv eid store₀ dep₀ origDeps s R) :
    RunInv eid store₀ dep₀ origDeps (track s k) (R ++ [k]) := by
  obtain ⟨hw0, hn0, hcoh, hndD, hndE⟩ := hB
  obtain ⟨hst, hstack, htr, hdep, hw, hn, he, newKs, hdeps, hnewmem, hnewnd⟩ := hInv
  have ht : track s k = trackEffects s k eid := by
    unfold track
    rw [hstack]
    simp [htr]
  have hbit : trackOpBit s = 2 := by
    unfold trackOpBit
    rw [hdep]
    norm_num
  rw [ht]
  unfold trackEffects
  rw [hbit, hdep]
  rw [if_pos (by norm_num [maxMarkerBits])]
  by_cases hkR : k ∈ R
  · -- the key was already read in this run: nothing changes
    have hnt : newTracked (s.depOf k) 2 = true := by
      rw [newTracked_two, hn k, if_pos hkR, testBit_or_two]
    rw [if_neg (not_not_intro hnt)]
    refine ⟨hst, hstack, htr, hdep, hw, ?_, ?_, newKs, hdeps, ?_, hnewnd⟩
    · intro k'
      rw [hn k']
      by_cases hk' : k' ∈ R
      · rw [if_pos hk', if_pos (by simp [hk'])]
      · rw [if_neg hk', if_neg (by
          simp only [List.mem_append, List.mem_singleton]
          rintro (h | rfl)
          exacts [hk' h, hk' hkR])]
    · intro k'
      rw [he k']
      by_cases hc : k' ∈ R ∧ k' ∉ origDeps
      · rw [if_pos hc, if_pos ⟨by simp [hc.1], hc.2⟩]
      · rw [if_neg hc, if_neg (by
          rintro ⟨hmem, ho⟩
          rcases List.mem_append.mp hmem with h | h
          · exact hc ⟨h, ho⟩
          · rcases List.mem_singleton.mp h with rfl
            exact hc ⟨hkR, ho⟩)]
    · intro k'
      rw [hnewmem k']
      constructor
      · rintro ⟨h, ho⟩
        exact ⟨by simp [h], ho⟩
      · rintro ⟨hmem, ho⟩
        rcases List.mem_append.mp hmem with h | h
        · exact ⟨h, ho⟩
        · rcases List.mem_singleton.mp h with rfl
          exact ⟨hkR, ho⟩
  · -- first read of this key in this run
    have hnt : newTracked (s.depOf k) 2 = false := by
      rw [newTracked_two, hn k, if_neg hkR]
      exact hn0 k
    rw [if_pos (by rw [hnt]; exact Bool.false_ne_true)]
    by_cases hkO : k ∈ origDeps
    · -- previously subscribed: only the n marker is set
      have hwt : wasTracked (s.depOf k) 2 = true := by
        rw [wasTracked_two, hw k, if_pos hkO, testBit_or_two]
      rw [if_neg (not_not_intro hwt)]
      refine ⟨hst, hstack, htr, rfl, ?_, ?_, ?_, newKs, hdeps, ?_, hnewnd⟩
      · intro k'
        by_cases hk' : k' = k
        · subst hk'
          simp only [Function.update_same]
          exact hw k'
        · simp only [Function.update_noteq hk']
          exact hw k'
      · intro k'
        by_cases hk' : k' = k
        · subst hk'
          simp only [Function.update_same]
          rw [hn k', if_neg hkR, if_pos (by simp)]
        · simp only [Function.update_noteq hk']
          rw [hn k']
          by_cases hk'R : k' ∈ R
          · rw [if_pos hk'R, if_pos (by simp [hk'R])]
          · rw [if_neg hk'R, if_neg (by simp [hk'R, hk'])]
      · intro k'
        by_cases hk' : k' = k
        · subst hk'
          simp only [Function.update_same]
          rw [he k', if_neg (fun h => hkR h.1), if_neg (fun h => h.2 hkO)]
        · simp only [Function.update_noteq hk']
          rw [he k']
          by_cases hc : k' ∈ R ∧ k' ∉ origDeps
          · rw [if_pos hc, if_pos ⟨by simp [hc.1], hc.2⟩]
          · rw [if_neg hc, if_neg (by
              rintro ⟨hmem, ho⟩
              rcases List.mem_append.mp hmem with h | h
              · exact hc ⟨h, ho⟩
              · exact hk' (List.mem_singleton.mp h))]
      · intro k'
        rw [hnewmem k']
        by_cases hk' : k' = k
        · subst hk'
          simp [hkR, hkO]
        · constructor
          · rintro ⟨h, ho⟩
            exact ⟨by simp [h], ho⟩
          · rintro ⟨hmem, ho⟩
            rcases List.mem_append.mp hmem with h | h
            · exact ⟨h, ho⟩
            · exact absurd (List.mem_singleton.mp h) hk'
    · -- a brand-new subscription: set the n marker and add the effect
      have hwt : wasTracked (s.depOf k) 2 = false := by
        rw [wasTracked_two, hw k, if_neg hkO]
        exact hw0 k
      rw [if_pos (by rw [hwt]; exact Bool.false_ne_true)]
      have heffsk : (s.depOf k).effs = (dep₀ k).effs := by
        rw [he k, if_neg (fun h => hkR h.1)]
      have hadd : setAdd (s.depOf k).effs eid = (dep₀ k).effs ++ [eid] := by
        rw [heffsk]
        unfold setAdd
        rw [if_neg (fun h => hkO ((hcoh k).mp h))]
      refine ⟨hst, hstack, htr, rfl, ?_, ?_, ?_, newKs ++ [k], ?_, ?_, ?_⟩
      · intro k'
        by_cases hk' : k' = k
        · subst hk'
          simp only [Function.update_same]
          exact hw k'
        · simp only [Function.update_noteq hk']
          exact hw k'
      · intro k'
        by_cases hk' : k' = k
        · subst hk'
          simp only [Function.update_same]
          rw [hn k', if_neg hkR, if_pos (by simp)]
        · simp only [Function.update_noteq hk']
          rw [hn k']
          by_cases hk'R : k' ∈ R
          · rw [if_pos hk'R, if_pos (by simp [hk'R])]
          · rw [if_neg hk'R, if_neg (by simp [hk'R, hk'])]
      · intro k'
        by_cases hk' : k' = k
        · subst hk'
          simp only [Function.update_same]
          rw [hadd, if_pos ⟨by simp, hkO⟩]
        · simp only [Function.update_noteq hk']
          rw [he k']
          by_cases hc : k' ∈ R ∧ k' ∉ origDeps
          · rw [if_pos hc, if_pos ⟨by simp [hc.1], hc.2⟩]
          · rw [if_neg hc, if_neg (by
              rintro ⟨hmem, ho⟩
              rcases List.mem_append.mp hmem with h | h
              · exact hc ⟨h, ho⟩
              · exact hk' (List.mem_singleton.mp h))]
      · simp only [Function.update_same]
        rw [hdeps, List.append_assoc]
      · intro k'
        by_cases hk' : k' = k
        · subst hk'
          simp [hnewmem, hkR, hkO]
        · constructor
          · intro hmem
            rcases List.mem_append.mp hmem with h | h
            · rcases (hnewmem k').mp h with ⟨h1, h2⟩
              exact ⟨by simp [h1], h2⟩
            · exact absurd (List.mem_singleton.mp h) hk'
          · rintro ⟨hmem, ho⟩
            rcases List.mem_append.mp hmem with h | h
            · exact List.mem_append.mpr (Or.inl ((hnewmem k').mpr ⟨h, ho⟩))
            · exact absurd (List.mem_singleton.mp h) hk'
      · rw [List.nodup_append]
        refine ⟨hnewnd, List.nodup_singleton _, ?_⟩
        intro a ha hb
        rcases List.mem_singleton.mp hb with rfl
        exact hkR ((hnewmem a).mp ha).1

/-- Executing a read-only (write- and throw-free) program completes
normally, preserves the run invariant, and extends the read set by
exactly the keys the program reads. -/
theorem interp_ro (eid : EffId) (store₀ : Key → JSVal) (dep₀ : Key → Dep)
    (origDeps : List Key) (hB : BaseHyps eid dep₀ origDeps) :
    ∀ (p : Prog), readOnlyProg p = true →
    ∀ (fuel : Nat) (s : Sys) (R : List Key), progSize p ≤ fuel →
    RunInv eid store₀ dep₀ origDeps s R →
    ∃ s', interp fuel s p = .ok s'
      ∧ RunInv eid store₀ dep₀ origDeps s' (R ++ progReads store₀ p) := by
  intro p
  induction p with
  | ret =>
      intro _ fuel s R hsz hInv
      match fuel, hsz with
      | 0, h => simp [progSize] at h
      | fuel + 1, _ =>
        exact ⟨s, rfl, by simpa [progReads] using hInv⟩
  | throwErr =>
      intro h
      exact absurd h (by simp [readOnlyProg])
  | read k rest ih =>
      intro hro fuel s R hsz hInv
      match fuel, hsz with
      | 0, h => simp [progSize] at h
      | fuel + 1, hsz =>
        have hsz' : progSize rest ≤ fuel := by
          simp only [progSize] at hsz
          omega
        obtain ⟨s', hi, hInv'⟩ := ih (by simpa [readOnlyProg] using hro)
          fuel (track s k) (R ++ [k]) hsz'
          (track_step eid store₀ dep₀ origDeps hB s R k hInv)
        refine ⟨s', hi, ?_⟩
        rw [show R ++ progReads store₀ (.read k rest)
            = (R ++ [k]) ++ progReads store₀ rest by simp [progReads]]
        exact hInv'
  | readIf k thn els ihT ihE =>
      intro hro fuel s R hsz hInv
      match fuel, hsz with
      | 0, h => simp [progSize] at h
      | fuel + 1, hsz =>
        have hszT : progSize thn ≤ fuel := by
          simp only [progSize] at hsz
          omega
        have hszE : progSize els ≤ fuel := by
          simp only [progSize] at hsz
          omega
        have hroT : readOnlyProg thn = true := by
          simp only [readOnlyProg, Bool.and_eq_true] at hro
          exact hro.1
        have hroE : readOnlyProg els = true := by
          simp only [readOnlyProg, Bool.and_eq_true] at hro
          exact hro.2
        have hst : s.store = store₀ := hInv.1
        by_cases hc : truthy (store₀ k) = true
        · have hstep : interp (fuel + 1) s (.readIf k thn els)
              = interp fuel (track s k) thn := by
            simp only [interp]
            rw [hst, if_pos hc]
          obtain ⟨s', hi, hInv'⟩ := ihT hroT fuel (track s k) (R ++ [k]) hszT
            (track_step eid store₀ dep₀ origDeps hB s R k hInv)
          refine ⟨s', by rw [hstep]; exact hi, ?_⟩
          rw [show R ++ progReads store₀ (.readIf k thn els)
              = (R ++ [k]) ++ progReads store₀ thn by simp [progReads, hc]]
          exact hInv'
        · have hc' : truthy (store₀ k) = false := eq_false_of_ne_true hc
          have hstep : interp (fuel + 1) s (.readIf k thn els)
              = interp fuel (track s k) els := by
            simp only [interp]
            rw [hst, hc']
            simp
          obtain ⟨s', hi, hInv'⟩ := ihE hroE fuel (track s k) (R ++ [k]) hszE
            (track_step eid store₀ dep₀ origDeps hB s R k hInv)
          refine ⟨s', by rw [hstep]; exact hi, ?_⟩
          rw [show R ++ progReads store₀ (.readIf k thn els)
              = (R ++ [k]) ++ progReads store₀ els by simp [progReads, hc']]
          exact hInv'
  | write k v rest ih =>
      intro h
      exact absurd h (by simp [readOnlyProg])

/-- Executing a write-free program (which may throw) preserves the run
invariant for a read set extending the previous one; it throws exactly
when the branch it takes ends in a throw, and completes normally
otherwise. -/
theorem interp_nw (eid : EffId) (store₀ : Key → JSVal) (dep₀ : Key → Dep)
    (origDeps : List Key) (hB : BaseHyps eid dep₀ origDeps) :
    ∀ (p : Prog), noWrite p = true →
    ∀ (fuel : Nat) (s : Sys) (R : List Key), progSize p ≤ fuel →
    RunInv eid store₀ dep₀ origDeps s R →
    ∃ s' R', RunInv eid store₀ dep₀ origDeps s' (R ++ R')
      ∧ interp fuel s p
          = (if progThrows store₀ p = true then .thrown s' else .ok s') := by
  intro p
  induction p with
  | ret =>
      intro _ fuel s R hsz hInv
      match fuel, hsz with
      | 0, h => simp [progSize] at h
      | fuel + 1, _ =>
        exact ⟨s, [], by simpa using hInv, by simp [progThrows, interp]⟩
  | throwErr =>
      intro _ fuel s R hsz hInv
      match fuel, hsz with
      | 0, h => simp [progSize] at h
      | fuel + 1, _ =>
        exact ⟨s, [], by simpa using hInv, by simp [progThrows, interp]⟩
  | read k rest ih =>
      intro hnw fuel s R hsz hInv
      match fuel, hsz with
      | 0, h => simp [progSize] at h
      | fuel + 1, hsz =>
        have hsz' : progSize rest ≤ fuel := by
          simp only [progSize] at hsz
          omega
        obtain ⟨s', R', hInv', hi⟩ := ih (by simpa [noWrite] using hnw)
          fuel (track s k) (R ++ [k]) hsz'
          (track_step eid store₀ dep₀ origDeps hB s R k hInv)
        refine ⟨s', [k] ++ R', ?_, ?_⟩
        · rw [show R ++ ([k] ++ R') = (R ++ [k]) ++ R' by simp]
          exact hInv'
        · show interp fuel (track s k) rest = _
          rw [hi]
          rfl
  | readIf k thn els ihT ihE =>
      intro hnw fuel s R hsz hInv
      match fuel, hsz with
      | 0, h => simp [progSize] at h
      | fuel + 1, hsz =>
        have hszT : progSize thn ≤ fuel := by
          simp only [progSize] at hsz
          omega
        have hszE : progSize els ≤ fuel := by
          simp only [progSize] at hsz
          omega
        have hnwT : noWrite thn = true := by
          simp only [noWrite, Bool.and_eq_true] at hnw
          exact hnw.1
        have hnwE : noWrite els = true := by
          simp only [noWrite, Bool.and_eq_true] at hnw
          exact hnw.2
        have hst : s.store = store₀ := hInv.1
        by_cases hc : truthy (store₀ k) = true
        · have hstep : interp (fuel + 1) s (.readIf k thn els)
              = interp fuel (track s k) thn := by
            simp only [interp]
            rw [hst, if_pos hc]
          obtain ⟨s', R', hInv', hi⟩ := ihT hnwT fuel (track s k) (R ++ [k]) hszT
            (track_step eid store₀ dep₀ origDeps hB s R k hInv)
          refine ⟨s', [k] ++ R', ?_, ?_⟩
          · rw [show R ++ ([k] ++ R') = (R ++ [k]) ++ R' by simp]
            exact hInv'
          · rw [hstep, hi, show progThrows store₀ (.readIf k thn els)
                = progThrows store₀ thn by simp [progThrows, hc]]
        · have hc' : truthy (store₀ k) = false := eq_false_of_ne_true hc
          have hstep : interp (fuel + 1) s (.readIf k thn els)
              = interp fuel (track s k) els := by
            simp only [interp]
            rw [hst, hc']
            simp
          obtain ⟨s', R', hInv', hi⟩ := ihE hnwE fuel (track s k) (R ++ [k]) hszE
            (track_step eid store₀ dep₀ origDeps hB s R k hInv)
          refine ⟨s', [k] ++ R', ?_, ?_⟩
          · rw [show R ++ ([k] ++ R') = (R ++ [k]) ++ R' by simp]
            exact hInv'
          · rw [hstep, hi, show progThrows store₀ (.readIf k thn els)
                = progThrows store₀ els by simp [progThrows, hc']]
  | write k v rest ih =>
      intro h
      exact absurd h (by simp [noWrite])

/-- After `finalizeDepMarkers`, effect membership in each dependency set
coincides exactly with this run's read set, and the depth-1 marker bits
are restored to their pre-run values. -/
theorem finalize_post (eid : EffId) (store₀ : Key → JSVal) (dep₀ : Key → Dep)
    (origDeps : List Key) (hB : BaseHyps eid dep₀ origDeps)
    (s : Sys) (R : List Key) (hInv : RunInv eid store₀ dep₀ origDeps s R) :
    ∀ k, (eid ∈ ((finalizeDepMarkers s eid).depOf k).effs ↔ k ∈ R)
      ∧ ((finalizeDepMarkers s eid).depOf k).w = (dep₀ k).w
      ∧ ((finalizeDepMarkers s eid).depOf k).n = (dep₀ k).n := by
  obtain ⟨hw0, hn0, hcoh, hndD, hndE⟩ := hB
  obtain ⟨hst, hstack, htr, hdep, hw, hn, he, newKs, hdeps, hnewmem, hnewnd⟩ := hInv
  have hbit : trackOpBit s = 2 := by
    unfold trackOpBit
    rw [hdep]
    norm_num
  intro k
  unfold finalizeDepMarkers
  rw [hbit, hdeps]
  dsimp only
  by_cases hk : k ∈ origDeps ++ newKs
  · rw [if_pos hk]
    by_cases hkR : k ∈ R
    · have hnew : newTracked (s.depOf k) 2 = true := by
        rw [newTracked_two, hn k, if_pos hkR, testBit_or_two]
      rw [hnew]
      refine ⟨?_, ?_, ?_⟩
      · simp only [Bool.not_true, Bool.and_false, Bool.false_eq_true, if_false,
          ite_false]
        rw [he k]
        by_cases hkO : k ∈ origDeps
        · rw [if_neg (fun h => h.2 hkO)]
          exact iff_of_true ((hcoh k).mpr hkO) hkR
        · rw [if_pos ⟨hkR, hkO⟩]
          exact iff_of_true (List.mem_append.mpr (Or.inr (List.mem_singleton.mpr rfl)))
            hkR
      · rw [hw k]
        by_cases hkO : k ∈ origDeps
        · rw [if_pos hkO, clearBit_or_two _ (hw0 k)]
        · rw [if_neg hkO, clearBit_two_of_clear _ (hw0 k)]
      · rw [hn k, if_pos hkR, clearBit_or_two _ (hn0 k)]
    · have hkO : k ∈ origDeps := by
        rcases List.mem_append.mp hk with h | h
        · exact h
        · exact absurd ((hnewmem k).mp h).1 hkR
      have hnew : newTracked (s.depOf k) 2 = false := by
        rw [newTracked_two, hn k, if_neg hkR]
        exact hn0 k
      have hwas : wasTracked (s.depOf k) 2 = true := by
        rw [wasTracked_two, hw k, if_pos hkO, testBit_or_two]
      rw [hnew, hwas]
      refine ⟨?_, ?_, ?_⟩
      · simp only [Bool.not_false, Bool.and_true, if_true, ite_true]
        rw [he k, if_neg (fun h => hkR h.1)]
        exact iff_of_false (fun h => (hndE k).not_mem_erase h) hkR
      · rw [hw k, if_pos hkO, clearBit_or_two _ (hw0 k)]
      · rw [hn k, if_neg hkR, clearBit_two_of_clear _ (hn0 k)]
  · rw [if_neg hk]
    have hkO : k ∉ origDeps := fun h => hk (List.mem_append.mpr (Or.inl h))
    have hkR : k ∉ R := fun h =>
      hk (List.mem_append.mpr (Or.inr ((hnewmem k).mpr ⟨h, hkO⟩)))
    refine ⟨?_, ?_, ?_⟩
    · rw [he k, if_neg (fun h => hkR h.1)]
      exact iff_of_false (fun h => hkO ((hcoh k).mp h)) hkR
    · rw [hw k, if_neg hkO]
    · rw [hn k, if_neg hkR]

/-- Unfolding of `ReactiveEffect.run()` for an active effect not already
on the parent chain, with the marker scheme in range. -/
theorem runEffect_unfold (fuel : Nat) (s : Sys) (eid : EffId)
    (hact : (s.effs eid).active = true) (hmem : eid ∉ s.activeStack)
    (hdepth : s.effectTrackDepth + 1 ≤ maxMarkerBits) :
    runEffect (fuel + 1) s eid
      = match interp fuel (logRun (initDepMarkers
          { s with activeStack := eid :: s.activeStack, shouldTrack := true,
                   effectTrackDepth := s.effectTrackDepth + 1 } eid) eid)
          ((s.effs eid).fn) with
        | .ok t => .ok (finishRun s.activeStack s.shouldTrack eid t)
        | .thrown t => .thrown (finishRun s.activeStack s.shouldTrack eid t)
        | .fuelOut => .fuelOut := by
  simp only [runEffect]
  rw [if_neg (by simp [hact]), if_neg hmem, if_pos hdepth]

/-- The invariant holds at the start of the run, right after the markers
are set and the function begins executing. -/
theorem init_inv (s : Sys) (eid : EffId)
    (hstack : s.activeStack = []) (hdepth : s.effectTrackDepth = 0) :
    RunInv eid s.store s.depOf ((s.effs eid).deps)
      (logRun (initDepMarkers
        { s with activeStack := eid :: s.activeStack, shouldTrack := true,
                 effectTrackDepth := s.effectTrackDepth + 1 } eid) eid) [] := by
  unfold RunInv logRun initDepMarkers
  dsimp only
  refine ⟨rfl, by rw [hstack], rfl, by rw [hdepth], ?_, ?_, ?_,
    [], by simp, by simp, List.nodup_nil⟩
  · intro k
    by_cases hk : k ∈ (s.effs eid).deps
    · rw [if_pos hk, if_pos hk]
      unfold trackOpBit
      dsimp only
      rw [hdepth]
      norm_num
    · rw [if_neg hk, if_neg hk]
  · intro k
    by_cases hk : k ∈ (s.effs eid).deps
    · rw [if_pos hk]
      simp
    · rw [if_neg hk]
      simp
  · intro k
    by_cases hk : k ∈ (s.effs eid).deps
    · rw [if_pos hk]
      simp
    · rw [if_neg hk]
      simp

/-- Claim C1: after any completed top-level `run()` of an active effect
whose function only performs tracked reads, the effect is a member of the
dependency set of a key if and only if it read that key during this run —
previously subscribed keys that were not re-read are pruned, newly read
keys are subscribed.  And concretely (`pruneScenario`): an effect that
conditionally read key 1 and, after the flag flip and re-run, reads key 2
instead, is no longer subscribed to key 1 (its dependency set is empty)
while key 2's dependency set now holds it, so a subsequent trigger on
key 1 does not re-run it (the run log stays `[7, 7]`). -/
theorem effect_deps_iff_reads :
    (∀ (fuel : Nat) (s : Sys) (eid : EffId),
      (s.effs eid).active = true →
      readOnlyProg (s.effs eid).fn = true →
      s.activeStack = [] →
      s.effectTrackDepth = 0 →
      progSize (s.effs eid).fn ≤ fuel →
      (∀ k, (s.depOf k).w.testBit 1 = false) →
      (∀ k, (s.depOf k).n.testBit 1 = false) →
      (∀ k, eid ∈ (s.depOf k).effs ↔ k ∈ (s.effs eid).deps) →
      (s.effs eid).deps.Nodup →
      (∀ k, (s.depOf k).effs.Nodup) →
      ∃ s', runEffect (fuel + 1) s eid = .ok s'
        ∧ ∀ k, (eid ∈ (s'.depOf k).effs ↔ k ∈ progReads s.store (s.effs eid).fn))
    ∧ pruneScenario = some ([7, 7], [], [7]) := by
  constructor
  · intro fuel s eid hact hro hstack hdepth hsz hwbit hnbit hcoh hndD hndE
    have hB : BaseHyps eid s.depOf ((s.effs eid).deps) :=
      ⟨hwbit, hnbit, hcoh, hndD, hndE⟩
    obtain ⟨s3, hi3, hInv3⟩ := interp_ro eid s.store s.depOf ((s.effs eid).deps) hB
      ((s.effs eid).fn) hro fuel _ [] hsz (init_inv s eid hstack hdepth)
    have hre := runEffect_unfold fuel s eid hact (by rw [hstack]; simp)
      (by rw [hdepth]; norm_num [maxMarkerBits])
    rw [hi3] at hre
    have hInv3' := hInv3
    obtain ⟨-, -, -, hdep3, -⟩ := hInv3'
    refine ⟨finishRun s.activeStack s.shouldTrack eid s3, hre, ?_⟩
    intro k
    have hfin : (finishRun s.activeStack s.shouldTrack eid s3).depOf
        = (finalizeDepMarkers s3 eid).depOf := by
      unfold finishRun
      rw [if_pos (by rw [hdep3]; norm_num [maxMarkerBits])]
    rw [hfin]
    have hpost := (finalize_post eid s.store s.depOf ((s.effs eid).deps) hB s3 _
      hInv3 k).1
    simpa using hpost
  · decide

/-- Witness for `effect_deps_iff_reads`: running effect `7` of
`condReadSys` (which reads key 0, then — flag truthy — key 1) leaves it
subscribed to exactly the keys it read. -/
theorem effect_deps_iff_reads_witness :
    ∃ s', runEffect 6 condReadSys 7 = .ok s'
      ∧ ∀ k, (7 ∈ (s'.depOf k).effs
          ↔ k ∈ progReads condReadSys.store (condReadSys.effs 7).fn) :=
  effect_deps_iff_reads.1 5 condReadSys 7 (by decide) (by decide) rfl rfl
    (by decide) (fun _ => by simp [condReadSys, createDep, Nat.zero_testBit])
    (fun _ => by simp [condReadSys, createDep, Nat.zero_testBit])
    (fun k => by simp [condReadSys, createDep]) (by decide)
    (fun _ => List.nodup_nil)

/-- Claim C9: if the function wrapped by an effect throws during a
top-level `run()`, the exception propagates to the caller (`run()`
results in a throw), but the global tracking bookkeeping — the
active-effect stack, the tracking-enabled flag, the bitmask depth and the
dependency markers — is restored to its pre-run state by the
guaranteed-cleanup block. -/
theorem run_throw_restores_bookkeeping :
    ∀ (fuel : Nat) (s : Sys) (eid : EffId),
      (s.effs eid).active = true →
      noWrite (s.effs eid).fn = true →
      progThrows s.store (s.effs eid).fn = true →
      s.activeStack = [] →
      s.effectTrackDepth = 0 →
      progSize (s.effs eid).fn ≤ fuel →
      (∀ k, (s.depOf k).w.testBit 1 = false) →
      (∀ k, (s.depOf k).n.testBit 1 = false) →
      (∀ k, eid ∈ (s.depOf k).effs ↔ k ∈ (s.effs eid).deps) →
      (s.effs eid).deps.Nodup →
      (∀ k, (s.depOf k).effs.Nodup) →
      ∃ s', runEffect (fuel + 1) s eid = .thrown s'
        ∧ s'.activeStack = s.activeStack
        ∧ s'.shouldTrack = s.shouldTrack
        ∧ s'.effectTrackDepth = s.effectTrackDepth
        ∧ (∀ k, (s'.depOf k).w = (s.depOf k).w ∧ (s'.depOf k).n = (s.depOf k).n) := by
  intro fuel s eid hact hnw hthrow hstack hdepth hsz hwbit hnbit hcoh hndD hndE
  have hB : BaseHyps eid s.depOf ((s.effs eid).deps) :=
    ⟨hwbit, hnbit, hcoh, hndD, hndE⟩
  obtain ⟨s3, R', hInv3, hi3⟩ := interp_nw eid s.store s.depOf ((s.effs eid).deps) hB
    ((s.effs eid).fn) hnw fuel _ [] hsz (init_inv s eid hstack hdepth)
  rw [if_pos hthrow] at hi3
  have hre := runEffect_unfold fuel s eid hact (by rw [hstack]; simp)
    (by rw [hdepth]; norm_num [maxMarkerBits])
  rw [hi3] at hre
  have hInv3' := hInv3
  obtain ⟨-, -, -, hdep3, -⟩ := hInv3'
  have hfin : finishRun s.activeStack s.shouldTrack eid s3
      = { finalizeDepMarkers s3 eid with
          effectTrackDepth := (finalizeDepMarkers s3 eid).effectTrackDepth - 1,
          activeStack := s.activeStack, shouldTrack := s.shouldTrack } := by
    unfold finishRun
    rw [if_pos (by rw [hdep3]; norm_num [maxMarkerBits])]
  refine ⟨finishRun s.activeStack s.shouldTrack eid s3, hre, ?_, ?_, ?_, ?_⟩
  · rw [hfin]
  · rw [hfin]
  · rw [hfin]
    have : (finalizeDepMarkers s3 eid).effectTrackDepth = s3.effectTrackDepth := rfl
    show (finalizeDepMarkers s3 eid).effectTrackDepth - 1 = s.effectTrackDepth
    rw [this, hdep3, hdepth]
  · intro k
    have hdf : (finishRun s.activeStack s.shouldTrack eid s3).depOf
        = (finalizeDepMarkers s3 eid).depOf := by
      rw [hfin]
    rw [hdf]
    have hpost := finalize_post eid s.store s.depOf ((s.effs eid).deps) hB s3 _
      hInv3 k
    exact ⟨hpost.2.1, hpost.2.2⟩

/-- Witness for `run_throw_restores_bookkeeping`: effect `9` of
`throwSys` reads key 0 and throws; its run propagates the throw and
restores the empty active stack, the tracking flag, depth 0 and the
cleared markers. -/
theorem run_throw_restores_bookkeeping_witness :
    ∃ s', runEffect 3 throwSys 9 = .thrown s'
      ∧ s'.activeStack = throwSys.activeStack
      ∧ s'.shouldTrack = throwSys.shouldTrack
      ∧ s'.effectTrackDepth = throwSys.effectTrackDepth
      ∧ (∀ k, (s'.depOf k).w = (throwSys.depOf k).w
          ∧ (s'.depOf k).n = (throwSys.depOf k).n) :=
  run_throw_restores_bookkeeping 2 throwSys 9 (by decide) (by decide) (by decide)
    rfl rfl (by decide) (fun _ => by simp [throwSys, createDep, Nat.zero_testBit])
    (fun _ => by simp [throwSys, createDep, Nat.zero_testBit])
    (fun k => by simp [throwSys, createDep]) (by decide)
    (fun _ => List.nodup_nil)

end VueModel
